import Mathlib

/-!
Verification of the fact-extraction and call-graph engine of the
architecture-viz repository.

The Lean definitions below are a shallow embedding of the Python source:

* `AV.CallNode`, `AV.CallGraph`, `AV.CallGraph.add_node`, `AV.CallGraph.add_edge`,
  `AV.CallGraph.get_reachable_from`, `AV.CallGraph.get_paths_between` embed the
  classes and methods of `src/analyzer/callgraph.py`.  The Python `dict` of
  nodes is embedded as an association list with insertion-order semantics
  (`AV.setA` overwrites in place, first binding wins on lookup), which matches
  CPython's insertion-ordered dictionaries.
* The Python `ast` module's trees are embedded as `AV.Ast`; `AV.walkList`
  embeds `ast.walk` (breadth-first traversal).  `AV.extract_call_relations`
  and `AV.build_module_callgraph` embed the functions of the same names, and
  `AV.parse_python_module` / `AV.formatArgs` embed `src/analyzer/ast_parse.py`.
  The outcome of `ast.parse` on a source text is passed in as an
  `Except ParseErr Ast` value, since the textual Python parser itself is
  foreign code.
-/

namespace AV

/-- Association-list lookup: first binding wins, embedding Python `d[k]` /
`k in d` on insertion-ordered dicts. -/
def lookupA {β : Type} : List (String × β) → String → Option β
  | [], _ => none
  | (k', v) :: rest, k => if k' = k then some v else lookupA rest k

/-- Association-list update `d[k] = v`: overwrite the existing binding in
place, else append at the end (CPython dict semantics). -/
def setA {β : Type} : List (String × β) → String → β → List (String × β)
  | [], k, v => [(k, v)]
  | (k', v') :: rest, k, v =>
    if k' = k then (k, v) :: rest else (k', v') :: setA rest k v

/-- In-place modification of the value bound to `k` (no-op when absent). -/
def modifyA {β : Type} : List (String × β) → String → (β → β) → List (String × β)
  | [], _, _ => []
  | (k', v') :: rest, k, f =>
    if k' = k then (k', f v') :: rest else (k', v') :: modifyA rest k f

/-- The keys of an association list, in order. -/
def keysA {β : Type} (m : List (String × β)) : List String := m.map Prod.fst

/-- Embeds `CallNode` of `src/analyzer/callgraph.py`: a function, method or
class in the call graph. -/
structure CallNode where
  name : String
  module : String
  line : Nat
  node_type : String
  calls : List String
  called_by : List String
deriving Repr, DecidableEq

/-- Embeds `CallGraph` of `src/analyzer/callgraph.py`: insertion-ordered node
dict plus edge list. -/
structure CallGraph where
  nodes : List (String × CallNode)
  edges : List (String × String)
deriving Repr, DecidableEq

/-- The empty call graph (`CallGraph.__init__`). -/
def CallGraph.empty : CallGraph := { nodes := [], edges := [] }

/-- Embeds `CallGraph.add_node`. -/
def CallGraph.add_node (g : CallGraph) (nd : CallNode) : CallGraph :=
  { g with nodes := setA g.nodes nd.name nd }

/-- Embeds `CallGraph.add_edge`: append to `caller.calls`, `callee.called_by`
and the edge list, but only when both endpoints are node keys. -/
def CallGraph.add_edge (g : CallGraph) (caller callee : String) : CallGraph :=
  if (lookupA g.nodes caller).isSome && (lookupA g.nodes callee).isSome then
    { nodes :=
        modifyA
          (modifyA g.nodes caller (fun nd => { nd with calls := nd.calls ++ [callee] }))
          callee (fun nd => { nd with called_by := nd.called_by ++ [caller] }),
      edges := g.edges ++ [(caller, callee)] }
  else g

/-- The largest `calls`-list length over the nodes of `g`; used only as a
termination measure for the traversal loops. -/
def maxCalls (g : CallGraph) : Nat :=
  (g.nodes.map (fun p => p.2.calls.length)).foldr Nat.max 0

theorem lookupA_mem {β : Type} {m : List (String × β)} {k : String} {v : β}
    (h : lookupA m k = some v) : (k, v) ∈ m := by
  induction m with
  | nil => simp [lookupA] at h
  | cons p rest ih =>
    obtain ⟨k', v'⟩ := p
    by_cases hk : k' = k
    · simp [lookupA, hk] at h
      simp [hk, h]
    · simp [lookupA, hk] at h
      exact List.mem_cons_of_mem _ (ih h)

theorem le_foldr_max {l : List Nat} {x : Nat} (h : x ∈ l) : x ≤ l.foldr Nat.max 0 := by
  induction l with
  | nil => simp at h
  | cons y ys ih =>
    rcases List.mem_cons.mp h with h1 | h2
    · subst h1; exact Nat.le_max_left _ _
    · exact le_trans (ih h2) (Nat.le_max_right _ _)

theorem calls_le_maxCalls {g : CallGraph} {k : String} {nd : CallNode}
    (h : lookupA g.nodes k = some nd) : nd.calls.length ≤ maxCalls g := by
  have hm : (k, nd) ∈ g.nodes := lookupA_mem h
  exact le_foldr_max (List.mem_map_of_mem _ hm)

/-- The loop body of `CallGraph.get_reachable_from` (lines 45-61 of
`src/analyzer/callgraph.py`): FIFO queue, lazy deletion, visit when unvisited
and within depth, expand through the current node's `calls`, all under a
100-visited-node cap. -/
def reachGo (g : CallGraph) (maxDepth : Nat) (visited : List (String × Nat))
    (queue : List (String × Nat)) : List (String × Nat) :=
  if 100 ≤ visited.length then visited
  else
    match queue with
    | [] => visited
    | (current, depth) :: rest =>
      if (lookupA visited current).isSome then reachGo g maxDepth visited rest
      else if maxDepth < depth then reachGo g maxDepth visited rest
      else
        match h : lookupA g.nodes current with
        | none => reachGo g maxDepth (visited ++ [(current, depth)]) rest
        | some nd =>
          reachGo g maxDepth (visited ++ [(current, depth)])
            (rest ++ (nd.calls.filter
                (fun c => (lookupA (visited ++ [(current, depth)]) c).isNone)).map
              (fun c => (c, depth + 1)))
  termination_by (100 - visited.length) * (maxCalls g + 1) + queue.length
  decreasing_by
  · simp only [List.length_cons]
    omega
  · simp only [List.length_cons]
    omega
  · simp only [List.length_cons, List.length_append, List.length_nil, Nat.zero_add]
    have hm : (100 - (visited.length + 1)) * (maxCalls g + 1)
        ≤ (100 - visited.length) * (maxCalls g + 1) :=
      Nat.mul_le_mul_right _ (by omega)
    omega
  · simp only [List.length_cons, List.length_append, List.length_map]
    have hcap : visited.length < 100 := by omega
    have hle : (nd.calls.filter
        (fun c => (lookupA (visited ++ [(current, depth)]) c).isNone)).length ≤ maxCalls g :=
      le_trans (List.length_filter_le _ _) (calls_le_maxCalls h)
    have h1 : 100 - (visited.length + 1) = (100 - visited.length) - 1 := by omega
    have h2 : 1 ≤ 100 - visited.length := by omega
    calc (100 - (visited.length + 1)) * (maxCalls g + 1) +
          (rest.length + (nd.calls.filter
            (fun c => (lookupA (visited ++ [(current, depth)]) c).isNone)).length)
        ≤ (100 - (visited.length + 1)) * (maxCalls g + 1) + (rest.length + maxCalls g) := by
          omega
      _ < (100 - visited.length) * (maxCalls g + 1) + (rest.length + 1) := by
          rw [h1]
          nlinarith [Nat.sub_add_cancel h2]

/-- Embeds `CallGraph.get_reachable_from` (BFS with depths); the returned
Python dict is embedded as an association list in insertion order. -/
def CallGraph.get_reachable_from (g : CallGraph) (start_node : String)
    (max_depth : Nat) : List (String × Nat) :=
  if (lookupA g.nodes start_node).isSome then
    reachGo g max_depth [] [(start_node, 0)]
  else []

theorem list_sum_map_const {α : Type} (l : List α) (k : Nat) :
    (l.map (fun _ => k)).sum = l.length * k := by
  induction l with
  | nil => simp
  | cons x xs ih => simp [ih, Nat.succ_mul, Nat.add_comm]

/-- The loop body of `CallGraph.get_paths_between` (lines 69-87 of
`src/analyzer/callgraph.py`): breadth-first expansion of partial paths,
pruning entries whose node count exceeds `maxDepth`, emitting a path when it
reaches `endNode`, extending otherwise through callees not already on the
path. -/
def pathsGo (g : CallGraph) (maxDepth : Nat) (endNode : String)
    (queue : List (String × List String)) : List (List String) :=
  match queue with
  | [] => []
  | (current, path) :: rest =>
    if maxDepth < path.length then pathsGo g maxDepth endNode rest
    else if current = endNode then path :: pathsGo g maxDepth endNode rest
    else
      match h : lookupA g.nodes current with
      | none => pathsGo g maxDepth endNode rest
      | some nd =>
        pathsGo g maxDepth endNode
          (rest ++ (nd.calls.filter (fun c => decide (c ∉ path))).map
            (fun c => (c, path ++ [c])))
  termination_by
    (queue.map (fun q => (maxCalls g + 1) ^ (maxDepth + 1 - q.2.length))).sum
  decreasing_by
  · simp only [List.map_cons, List.sum_cons]
    have : 0 < (maxCalls g + 1) ^ (maxDepth + 1 - path.length) :=
      Nat.pos_pow_of_pos _ (Nat.succ_pos _)
    omega
  · simp only [List.map_cons, List.sum_cons]
    have : 0 < (maxCalls g + 1) ^ (maxDepth + 1 - path.length) :=
      Nat.pos_pow_of_pos _ (Nat.succ_pos _)
    omega
  · simp only [List.map_cons, List.sum_cons]
    have : 0 < (maxCalls g + 1) ^ (maxDepth + 1 - path.length) :=
      Nat.pos_pow_of_pos _ (Nat.succ_pos _)
    omega
  · simp only [List.map_cons, List.sum_cons, List.map_append, List.sum_append,
      List.map_map]
    have hlen : path.length ≤ maxDepth := by omega
    have hexp : maxDepth + 1 - path.length = (maxDepth - path.length) + 1 := by omega
    have hnews : ((nd.calls.filter (fun c => decide (c ∉ path))).map
        (fun c => (maxCalls g + 1) ^ (maxDepth + 1 - (path ++ [c]).length))).sum
        = (nd.calls.filter (fun c => decide (c ∉ path))).length *
            (maxCalls g + 1) ^ (maxDepth - path.length) := by
      have : ∀ c : String,
          (maxCalls g + 1) ^ (maxDepth + 1 - (path ++ [c]).length)
            = (maxCalls g + 1) ^ (maxDepth - path.length) := by
        intro c
        have : maxDepth + 1 - (path.length + 1) = maxDepth - path.length := by omega
        simp [List.length_append, this]
      calc ((nd.calls.filter (fun c => decide (c ∉ path))).map
            (fun c => (maxCalls g + 1) ^ (maxDepth + 1 - (path ++ [c]).length))).sum
          = ((nd.calls.filter (fun c => decide (c ∉ path))).map
            (fun _ => (maxCalls g + 1) ^ (maxDepth - path.length))).sum := by
            exact congrArg List.sum (List.map_congr_left (fun c _ => this c))
        _ = _ := list_sum_map_const _ _
    rw [Function.comp_def]
    rw [hnews]
    have hle : (nd.calls.filter (fun c => decide (c ∉ path))).length ≤ maxCalls g :=
      le_trans (List.length_filter_le _ _) (calls_le_maxCalls h)
    have hkey : (nd.calls.filter (fun c => decide (c ∉ path))).length *
        (maxCalls g + 1) ^ (maxDepth - path.length)
        < (maxCalls g + 1) ^ (maxDepth + 1 - path.length) := by
      rw [hexp, pow_succ]
      have hpos : 0 < (maxCalls g + 1) ^ (maxDepth - path.length) :=
        Nat.pos_pow_of_pos _ (Nat.succ_pos _)
      calc (nd.calls.filter (fun c => decide (c ∉ path))).length *
            (maxCalls g + 1) ^ (maxDepth - path.length)
          ≤ maxCalls g * (maxCalls g + 1) ^ (maxDepth - path.length) :=
            Nat.mul_le_mul_right _ hle
        _ < (maxCalls g + 1) * (maxCalls g + 1) ^ (maxDepth - path.length) := by
            exact Nat.mul_lt_mul_of_lt_of_le (Nat.lt_succ_self _) (le_refl _) hpos
        _ = (maxCalls g + 1) ^ (maxDepth - path.length) * (maxCalls g + 1) := by ring
    omega

/-- Embeds `CallGraph.get_paths_between` (find all paths between two nodes by
breadth-first expansion of partial paths). -/
def CallGraph.get_paths_between (g : CallGraph) (start endNode : String)
    (max_depth : Nat) : List (List String) :=
  if (lookupA g.nodes start).isSome && (lookupA g.nodes endNode).isSome then
    pathsGo g max_depth endNode [(start, [start])]
  else []

/-- `v` is a direct callee of `u` in graph `g` (the edge relation that both
traversals of `src/analyzer/callgraph.py` follow). -/
def adjacent (g : CallGraph) (u v : String) : Prop :=
  ∃ nd, lookupA g.nodes u = some nd ∧ v ∈ nd.calls

/-- There is a walk of exactly `k` call edges from `s` to the given node. -/
inductive ReachN (g : CallGraph) (s : String) : String → Nat → Prop where
  | refl : ReachN g s s 0
  | step {u v : String} {k : Nat} :
      ReachN g s u k → adjacent g u v → ReachN g s v (k + 1)

/-- `m` is the shortest-path distance from `s` to `v` along call edges. -/
def IsDist (g : CallGraph) (s v : String) (m : Nat) : Prop :=
  ReachN g s v m ∧ ∀ j, ReachN g s v j → m ≤ j

theorem lookupA_eq_none {β : Type} {m : List (String × β)} {k : String} :
    lookupA m k = none ↔ ∀ v, (k, v) ∉ m := by
  induction m with
  | nil => simp [lookupA]
  | cons p rest ih =>
    obtain ⟨k', v'⟩ := p
    by_cases hk : k' = k
    · subst hk
      simp only [lookupA, if_pos rfl]
      constructor
      · intro h
        exact Option.noConfusion h
      · intro hall
        exact ((hall v') (List.mem_cons_self _ _)).elim
    · simp only [lookupA, if_neg hk]
      rw [ih]
      constructor
      · intro hall v hv
        rcases List.mem_cons.mp hv with he | hm
        · exact hk (congrArg Prod.fst he).symm
        · exact hall v hm
      · intro hall v hv
        exact hall v (List.mem_cons_of_mem _ hv)

theorem lookupA_isSome_iff {β : Type} {m : List (String × β)} {k : String} :
    (lookupA m k).isSome = true ↔ ∃ v, (k, v) ∈ m := by
  induction m with
  | nil => simp [lookupA]
  | cons p rest ih =>
    obtain ⟨k', v'⟩ := p
    by_cases hk : k' = k
    · subst hk
      simp [lookupA]
    · simp only [lookupA, if_neg hk, ih]
      constructor
      · rintro ⟨v, hv⟩
        exact ⟨v, List.mem_cons_of_mem _ hv⟩
      · rintro ⟨v, hv⟩
        rcases List.mem_cons.mp hv with he | hm
        · exact absurd (congrArg Prod.fst he).symm hk
        · exact ⟨v, hm⟩

theorem keysA_append {β : Type} (m m2 : List (String × β)) :
    keysA (m ++ m2) = keysA m ++ keysA m2 := by
  simp [keysA]

theorem mem_keysA {β : Type} {m : List (String × β)} {k : String} :
    k ∈ keysA m ↔ ∃ v, (k, v) ∈ m := by
  constructor
  · intro h
    rcases List.mem_map.mp h with ⟨⟨k', v⟩, hm, he⟩
    exact ⟨v, by simpa [← he] using hm⟩
  · rintro ⟨v, hv⟩
    exact List.mem_map.mpr ⟨(k, v), hv, rfl⟩

theorem lookupA_of_mem_nodup {β : Type} {m : List (String × β)} {k : String} {v : β}
    (hnd : (keysA m).Nodup) (hm : (k, v) ∈ m) : lookupA m k = some v := by
  induction m with
  | nil => simp at hm
  | cons p rest ih =>
    obtain ⟨k', v'⟩ := p
    simp only [keysA, List.map_cons, List.nodup_cons] at hnd
    rcases List.mem_cons.mp hm with he | hmem
    · injection he with e1 e2
      subst e1
      subst e2
      simp [lookupA]
    · have hkne : k' ≠ k := by
        intro hcon
        subst hcon
        exact hnd.1 (mem_keysA.mpr ⟨v, hmem⟩)
      simp only [lookupA, if_neg hkne]
      exact ih hnd.2 hmem

theorem lookupA_append_left {β : Type} {m m2 : List (String × β)} {k : String} {v : β}
    (h : lookupA m k = some v) : lookupA (m ++ m2) k = some v := by
  induction m with
  | nil => simp [lookupA] at h
  | cons p rest ih =>
    obtain ⟨k', v'⟩ := p
    by_cases hk : k' = k
    · simp_all [lookupA]
    · simp only [lookupA, if_neg hk] at h ⊢
      exact ih h

/-- The invariant maintained by the BFS loop of `get_reachable_from`. -/
structure ReachInv (g : CallGraph) (s : String) (d : Nat)
    (visited queue : List (String × Nat)) : Prop where
  nodupKeys : (keysA visited).Nodup
  vis_dist : ∀ p ∈ visited, IsDist g s p.1 p.2 ∧ p.2 ≤ d
  q_reach : ∀ p ∈ queue, ReachN g s p.1 p.2
  closure : ∀ p ∈ visited, p.2 < d → ∀ w, adjacent g p.1 w →
      (∃ k, (w, k) ∈ visited) ∨ (w, p.2 + 1) ∈ queue
  start_mem : (s, 0) ∈ visited ∨ (s, 0) ∈ queue
  sortedQ : queue.Pairwise (fun a b => a.2 ≤ b.2)
  spreadQ : ∀ a ∈ queue, ∀ b ∈ queue, a.2 ≤ b.2 + 1

/-- Under the loop invariant, every node reachable within the depth bound is
either already visited or still represented in the queue at no greater
depth. -/
theorem reachInv_progress {g : CallGraph} {s : String} {d : Nat}
    {visited queue : List (String × Nat)} (hI : ReachInv g s d visited queue)
    {w : String} {m : Nat} (hr : ReachN g s w m) :
    m ≤ d → (∃ k, (w, k) ∈ visited) ∨ (∃ e ∈ queue, e.2 ≤ m) := by
  induction hr with
  | refl =>
    intro _
    rcases hI.start_mem with hv | hq
    · exact Or.inl ⟨0, hv⟩
    · exact Or.inr ⟨(s, 0), hq, le_refl 0⟩
  | @step u v k hru hadj ih =>
    intro hm
    have hk : k ≤ d := le_trans (Nat.le_succ k) hm
    rcases ih hk with ⟨ku, hku⟩ | ⟨e, he, hle⟩
    · have hud := hI.vis_dist _ hku
      have hkuk : ku ≤ k := hud.1.2 _ hru
      have hlt : ku < d := lt_of_le_of_lt hkuk (Nat.lt_of_succ_le hm)
      rcases hI.closure _ hku hlt _ hadj with ⟨kw, hkw⟩ | hq
      · exact Or.inl ⟨kw, hkw⟩
      · exact Or.inr ⟨(v, ku + 1), hq, Nat.succ_le_succ hkuk⟩
    · exact Or.inr ⟨e, he, le_trans hle (Nat.le_succ k)⟩

theorem reachGo_cap {g : CallGraph} {d : Nat} {visited queue : List (String × Nat)}
    (h : 100 ≤ visited.length) : reachGo g d visited queue = visited := by
  rw [reachGo.eq_def, if_pos h]

theorem reachGo_nil {g : CallGraph} {d : Nat} {visited : List (String × Nat)} :
    reachGo g d visited [] = visited := by
  rw [reachGo]
  split <;> rfl

theorem reachGo_cons_skipVisited {g : CallGraph} {d : Nat}
    {visited rest : List (String × Nat)} {current : String} {depth : Nat}
    (h100 : ¬ 100 ≤ visited.length) (hv : (lookupA visited current).isSome = true) :
    reachGo g d visited ((current, depth) :: rest) = reachGo g d visited rest := by
  rw [reachGo]
  simp only [if_neg h100, hv, if_pos]

theorem reachGo_cons_skipDepth {g : CallGraph} {d : Nat}
    {visited rest : List (String × Nat)} {current : String} {depth : Nat}
    (h100 : ¬ 100 ≤ visited.length) (hv : ¬ (lookupA visited current).isSome = true)
    (hd : d < depth) :
    reachGo g d visited ((current, depth) :: rest) = reachGo g d visited rest := by
  rw [reachGo]
  simp only [if_neg h100, if_neg hv, if_pos hd]

theorem reachGo_cons_visitNone {g : CallGraph} {d : Nat}
    {visited rest : List (String × Nat)} {current : String} {depth : Nat}
    (h100 : ¬ 100 ≤ visited.length) (hv : ¬ (lookupA visited current).isSome = true)
    (hd : ¬ d < depth) (hn : lookupA g.nodes current = none) :
    reachGo g d visited ((current, depth) :: rest)
      = reachGo g d (visited ++ [(current, depth)]) rest := by
  rw [reachGo]
  simp only [if_neg h100, if_neg hv, if_neg hd]
  split <;> simp_all

theorem reachGo_cons_visitSome {g : CallGraph} {d : Nat}
    {visited rest : List (String × Nat)} {current : String} {depth : Nat}
    (h100 : ¬ 100 ≤ visited.length) (hv : ¬ (lookupA visited current).isSome = true)
    (hd : ¬ d < depth) {nd : CallNode} (hn : lookupA g.nodes current = some nd) :
    reachGo g d visited ((current, depth) :: rest)
      = reachGo g d (visited ++ [(current, depth)])
          (rest ++ (nd.calls.filter
              (fun c => (lookupA (visited ++ [(current, depth)]) c).isNone)).map
            (fun c => (c, depth + 1))) := by
  rw [reachGo]
  simp only [if_neg h100, if_neg hv, if_neg hd]
  split <;> simp_all

theorem mem_news_snd {visited' : List (String × Nat)} {nd : CallNode} {depth : Nat}
    {b : String × Nat}
    (hb : b ∈ (nd.calls.filter (fun c => (lookupA visited' c).isNone)).map
      (fun c => (c, depth + 1))) : b.2 = depth + 1 := by
  rcases List.mem_map.mp hb with ⟨c, _, rfl⟩
  rfl

theorem pairwise_map_const_snd {l : List String} {depth : Nat} :
    (l.map (fun c => (c, depth))).Pairwise (fun a b : String × Nat => a.2 ≤ b.2) := by
  induction l with
  | nil => simp
  | cons x xs ih =>
    simp only [List.map_cons, List.pairwise_cons]
    refine ⟨?_, ih⟩
    intro b hb
    rcases List.mem_map.mp hb with ⟨c, _, rfl⟩
    exact le_refl _

/-- When the head of the queue is about to be visited, its queued depth is its
exact shortest-path distance. -/
theorem visit_isDist {g : CallGraph} {s : String} {d : Nat}
    {visited rest : List (String × Nat)} {current : String} {depth : Nat}
    (hI : ReachInv g s d visited ((current, depth) :: rest))
    (hnv : lookupA visited current = none) (hd : depth ≤ d) :
    IsDist g s current depth := by
  refine ⟨hI.q_reach _ (List.mem_cons_self _ _), ?_⟩
  intro j hj
  by_cases hjd : j ≤ d
  · rcases reachInv_progress hI hj hjd with ⟨k, hk⟩ | ⟨e, he, hle⟩
    · exact absurd hk (lookupA_eq_none.mp hnv k)
    · rcases List.mem_cons.mp he with he2 | hmem
      · subst he2
        exact hle
      · have hrel := (List.pairwise_cons.mp hI.sortedQ).1 e hmem
        exact le_trans hrel hle
  · omega

theorem inv_skipVisited {g : CallGraph} {s : String} {d : Nat}
    {visited rest : List (String × Nat)} {current : String} {depth : Nat}
    (hI : ReachInv g s d visited ((current, depth) :: rest))
    (hv : (lookupA visited current).isSome = true) :
    ReachInv g s d visited rest := by
  obtain ⟨cv, hcv⟩ := lookupA_isSome_iff.mp hv
  refine ⟨hI.nodupKeys, hI.vis_dist, ?_, ?_, ?_, ?_, ?_⟩
  · exact fun p hp => hI.q_reach p (List.mem_cons_of_mem _ hp)
  · intro p hp hlt w hw
    rcases hI.closure p hp hlt w hw with hL | hQ
    · exact Or.inl hL
    · rcases List.mem_cons.mp hQ with he | hm
      · injection he with e1 _
        exact Or.inl ⟨cv, e1 ▸ hcv⟩
      · exact Or.inr hm
  · rcases hI.start_mem with h | h
    · exact Or.inl h
    · rcases List.mem_cons.mp h with he | hm
      · injection he with e1 _
        subst e1
        have hdd := hI.vis_dist _ hcv
        have hz : cv ≤ 0 := hdd.1.2 0 ReachN.refl
        have : cv = 0 := Nat.le_zero.mp hz
        exact Or.inl (this ▸ hcv)
      · exact Or.inr hm
  · exact (List.pairwise_cons.mp hI.sortedQ).2
  · intro a ha b hb
    exact hI.spreadQ a (List.mem_cons_of_mem _ ha) b (List.mem_cons_of_mem _ hb)

theorem inv_skipDepth {g : CallGraph} {s : String} {d : Nat}
    {visited rest : List (String × Nat)} {current : String} {depth : Nat}
    (hI : ReachInv g s d visited ((current, depth) :: rest))
    (hdd : d < depth) :
    ReachInv g s d visited rest := by
  refine ⟨hI.nodupKeys, hI.vis_dist, ?_, ?_, ?_, ?_, ?_⟩
  · exact fun p hp => hI.q_reach p (List.mem_cons_of_mem _ hp)
  · intro p hp hlt w hw
    rcases hI.closure p hp hlt w hw with hL | hQ
    · exact Or.inl hL
    · rcases List.mem_cons.mp hQ with he | hm
      · injection he with _ e2
        omega
      · exact Or.inr hm
  · rcases hI.start_mem with h | h
    · exact Or.inl h
    · rcases List.mem_cons.mp h with he | hm
      · injection he with _ e2
        omega
      · exact Or.inr hm
  · exact (List.pairwise_cons.mp hI.sortedQ).2
  · intro a ha b hb
    exact hI.spreadQ a (List.mem_cons_of_mem _ ha) b (List.mem_cons_of_mem _ hb)

theorem visited_ext_nodup {visited : List (String × Nat)} {current : String} {depth : Nat}
    (hnd : (keysA visited).Nodup) (hnv : lookupA visited current = none) :
    (keysA (visited ++ [(current, depth)])).Nodup := by
  rw [keysA_append]
  have hnot : current ∉ keysA visited := by
    intro hmem
    rcases mem_keysA.mp hmem with ⟨v, hv⟩
    exact lookupA_eq_none.mp hnv v hv
  refine List.Nodup.append hnd (by simp [keysA]) ?_
  intro a ha hb
  have : a = current := by simpa [keysA] using hb
  exact hnot (this ▸ ha)

theorem inv_visitNone {g : CallGraph} {s : String} {d : Nat}
    {visited rest : List (String × Nat)} {current : String} {depth : Nat}
    (hI : ReachInv g s d visited ((current, depth) :: rest))
    (hnv : lookupA visited current = none) (hdd : depth ≤ d)
    (hn : lookupA g.nodes current = none) :
    ReachInv g s d (visited ++ [(current, depth)]) rest := by
  have hdist := visit_isDist hI hnv hdd
  refine ⟨visited_ext_nodup hI.nodupKeys hnv, ?_, ?_, ?_, ?_, ?_, ?_⟩
  · intro p hp
    rcases List.mem_append.mp hp with hold | hnew
    · exact hI.vis_dist p hold
    · have : p = (current, depth) := by simpa using hnew
      subst this
      exact ⟨hdist, hdd⟩
  · exact fun p hp => hI.q_reach p (List.mem_cons_of_mem _ hp)
  · intro p hp hlt w hw
    rcases List.mem_append.mp hp with hold | hnew
    · rcases hI.closure p hold hlt w hw with ⟨k, hk⟩ | hQ
      · exact Or.inl ⟨k, List.mem_append_left _ hk⟩
      · rcases List.mem_cons.mp hQ with he | hm
        · injection he with e1 _
          exact Or.inl ⟨depth, List.mem_append_right _ (by simp [e1])⟩
        · exact Or.inr hm
    · have hp2 : p = (current, depth) := by simpa using hnew
      subst hp2
      rcases hw with ⟨nd2, hnd2, _⟩
      rw [hn] at hnd2
      exact Option.noConfusion hnd2
  · rcases hI.start_mem with h | h
    · exact Or.inl (List.mem_append_left _ h)
    · rcases List.mem_cons.mp h with he | hm
      · exact Or.inl (List.mem_append_right _ (by simp [he.symm]))
      · exact Or.inr hm
  · exact (List.pairwise_cons.mp hI.sortedQ).2
  · intro a ha b hb
    exact hI.spreadQ a (List.mem_cons_of_mem _ ha) b (List.mem_cons_of_mem _ hb)

theorem inv_visitSome {g : CallGraph} {s : String} {d : Nat}
    {visited rest : List (String × Nat)} {current : String} {depth : Nat}
    (hI : ReachInv g s d visited ((current, depth) :: rest))
    (hnv : lookupA visited current = none) (hdd : depth ≤ d)
    {nd : CallNode} (hn : lookupA g.nodes current = some nd) :
    ReachInv g s d (visited ++ [(current, depth)])
      (rest ++ (nd.calls.filter
          (fun c => (lookupA (visited ++ [(current, depth)]) c).isNone)).map
        (fun c => (c, depth + 1))) := by
  have hdist := visit_isDist hI hnv hdd
  have hspread_head : ∀ b ∈ rest, depth ≤ b.2 :=
    fun b hb => (List.pairwise_cons.mp hI.sortedQ).1 b hb
  have hspread_old : ∀ a ∈ rest, a.2 ≤ depth + 1 :=
    fun a ha => hI.spreadQ a (List.mem_cons_of_mem _ ha) (current, depth)
      (List.mem_cons_self _ _)
  refine ⟨visited_ext_nodup hI.nodupKeys hnv, ?_, ?_, ?_, ?_, ?_, ?_⟩
  · intro p hp
    rcases List.mem_append.mp hp with hold | hnew
    · exact hI.vis_dist p hold
    · have : p = (current, depth) := by simpa using hnew
      subst this
      exact ⟨hdist, hdd⟩
  · intro p hp
    rcases List.mem_append.mp hp with hold | hnew
    · exact hI.q_reach p (List.mem_cons_of_mem _ hold)
    · rcases List.mem_map.mp hnew with ⟨c, hcfil, rfl⟩
      have hadj : adjacent g current c := ⟨nd, hn, (List.mem_filter.mp hcfil).1⟩
      exact ReachN.step (hI.q_reach _ (List.mem_cons_self _ _)) hadj
  · intro p hp hlt w hw
    rcases List.mem_append.mp hp with hold | hnew
    · rcases hI.closure p hold hlt w hw with ⟨k, hk⟩ | hQ
      · exact Or.inl ⟨k, List.mem_append_left _ hk⟩
      · rcases List.mem_cons.mp hQ with he | hm
        · injection he with e1 _
          exact Or.inl ⟨depth, List.mem_append_right _ (by simp [e1])⟩
        · exact Or.inr (List.mem_append_left _ hm)
    · have hp2 : p = (current, depth) := by simpa using hnew
      subst hp2
      rcases hw with ⟨nd2, hnd2, hwc⟩
      rw [hn] at hnd2
      injection hnd2 with e
      subst e
      by_cases hwv : (lookupA (visited ++ [(current, depth)]) w).isNone = true
      · refine Or.inr (List.mem_append_right _ ?_)
        exact List.mem_map.mpr ⟨w, List.mem_filter.mpr ⟨hwc, hwv⟩, rfl⟩
      · have hsome : (lookupA (visited ++ [(current, depth)]) w).isSome = true := by
          cases hcase : lookupA (visited ++ [(current, depth)]) w <;> simp_all
        rcases lookupA_isSome_iff.mp hsome with ⟨v, hv⟩
        exact Or.inl ⟨v, hv⟩
  · rcases hI.start_mem with h | h
    · exact Or.inl (List.mem_append_left _ h)
    · rcases List.mem_cons.mp h with he | hm
      · exact Or.inl (List.mem_append_right _ (by simp [he.symm]))
      · exact Or.inr (List.mem_append_left _ hm)
  · rw [List.pairwise_append]
    refine ⟨(List.pairwise_cons.mp hI.sortedQ).2, pairwise_map_const_snd, ?_⟩
    intro a ha b hb
    have hb2 : b.2 = depth + 1 := mem_news_snd hb
    rw [hb2]
    exact hspread_old a ha
  · intro a ha b hb
    rcases List.mem_append.mp ha with ha1 | ha2 <;>
      rcases List.mem_append.mp hb with hb1 | hb2
    · exact hI.spreadQ a (List.mem_cons_of_mem _ ha1) b (List.mem_cons_of_mem _ hb1)
    · rw [mem_news_snd hb2]
      exact le_trans (hspread_old a ha1) (Nat.le_succ _)
    · rw [mem_news_snd ha2]
      exact Nat.succ_le_succ (hspread_head b hb1)
    · rw [mem_news_snd ha2, mem_news_snd hb2]
      exact Nat.le_succ _

/-- Every entry that `get_reachable_from`'s loop records carries the exact
shortest-path distance, bounded by `maxDepth`, and keys are never
duplicated. -/
theorem reachGo_sound {g : CallGraph} {s : String} {d : Nat} :
    ∀ (visited queue : List (String × Nat)), ReachInv g s d visited queue →
    (keysA (reachGo g d visited queue)).Nodup ∧
    ∀ p ∈ reachGo g d visited queue, IsDist g s p.1 p.2 ∧ p.2 ≤ d := by
  intro visited queue
  induction visited, queue using reachGo.induct g d with
  | case1 visited queue h100 =>
    intro hI
    rw [reachGo_cap h100]
    exact ⟨hI.nodupKeys, hI.vis_dist⟩
  | case2 visited h100 =>
    intro hI
    rw [reachGo_nil]
    exact ⟨hI.nodupKeys, hI.vis_dist⟩
  | case3 visited h100 current depth rest hv ih =>
    intro hI
    rw [reachGo_cons_skipVisited h100 hv]
    exact ih (inv_skipVisited hI hv)
  | case4 visited h100 current depth rest hv hd ih =>
    intro hI
    rw [reachGo_cons_skipDepth h100 hv hd]
    exact ih (inv_skipDepth hI hd)
  | case5 visited h100 current depth rest hv hd hn ih =>
    intro hI
    rw [reachGo_cons_visitNone h100 hv hd hn]
    exact ih (inv_visitNone hI (Option.not_isSome_iff_eq_none.mp hv) (Nat.not_lt.mp hd) hn)
  | case6 visited h100 current depth rest hv hd nd hn ih =>
    intro hI
    rw [reachGo_cons_visitSome h100 hv hd hn]
    exact ih (inv_visitSome hI (Option.not_isSome_iff_eq_none.mp hv) (Nat.not_lt.mp hd) hn)

/-- When the loop finishes with fewer than 100 entries, the cap never fired,
so every node within the depth bound has been recorded. -/
theorem reachGo_complete {g : CallGraph} {s : String} {d : Nat} :
    ∀ (visited queue : List (String × Nat)), ReachInv g s d visited queue →
    (reachGo g d visited queue).length < 100 →
    ∀ w m, ReachN g s w m → m ≤ d → ∃ k, (w, k) ∈ reachGo g d visited queue := by
  intro visited queue
  induction visited, queue using reachGo.induct g d with
  | case1 visited queue h100 =>
    intro _ hlen
    rw [reachGo_cap h100] at hlen
    omega
  | case2 visited h100 =>
    intro hI _ w m hr hm
    rw [reachGo_nil]
    rcases reachInv_progress hI hr hm with ⟨k, hk⟩ | ⟨e, he, _⟩
    · exact ⟨k, hk⟩
    · exact absurd he (List.not_mem_nil e)
  | case3 visited h100 current depth rest hv ih =>
    intro hI hlen
    rw [reachGo_cons_skipVisited h100 hv] at hlen ⊢
    exact ih (inv_skipVisited hI hv) hlen
  | case4 visited h100 current depth rest hv hd ih =>
    intro hI hlen
    rw [reachGo_cons_skipDepth h100 hv hd] at hlen ⊢
    exact ih (inv_skipDepth hI hd) hlen
  | case5 visited h100 current depth rest hv hd hn ih =>
    intro hI hlen
    rw [reachGo_cons_visitNone h100 hv hd hn] at hlen ⊢
    exact ih (inv_visitNone hI (Option.not_isSome_iff_eq_none.mp hv) (Nat.not_lt.mp hd) hn) hlen
  | case6 visited h100 current depth rest hv hd nd hn ih =>
    intro hI hlen
    rw [reachGo_cons_visitSome h100 hv hd hn] at hlen ⊢
    exact ih (inv_visitSome hI (Option.not_isSome_iff_eq_none.mp hv) (Nat.not_lt.mp hd) hn) hlen

/-- The 100-node cap: the loop never returns more than 100 entries. -/
theorem reachGo_le_100 {g : CallGraph} {d : Nat} :
    ∀ (visited queue : List (String × Nat)), visited.length ≤ 100 →
    (reachGo g d visited queue).length ≤ 100 := by
  intro visited queue
  induction visited, queue using reachGo.induct g d with
  | case1 visited queue h100 =>
    intro h
    rw [reachGo_cap h100]
    exact h
  | case2 visited h100 =>
    intro h
    rw [reachGo_nil]
    exact h
  | case3 visited h100 current depth rest hv ih =>
    intro h
    rw [reachGo_cons_skipVisited h100 hv]
    exact ih h
  | case4 visited h100 current depth rest hv hd ih =>
    intro h
    rw [reachGo_cons_skipDepth h100 hv hd]
    exact ih h
  | case5 visited h100 current depth rest hv hd hn ih =>
    intro _
    rw [reachGo_cons_visitNone h100 hv hd hn]
    refine ih ?_
    simp only [List.length_append, List.length_cons, List.length_nil]
    omega
  | case6 visited h100 current depth rest hv hd nd hn ih =>
    intro _
    rw [reachGo_cons_visitSome h100 hv hd hn]
    refine ih ?_
    simp only [List.length_append, List.length_cons, List.length_nil]
    omega

/-- The loop only ever appends to `visited`. -/
theorem reachGo_ext {g : CallGraph} {d : Nat} :
    ∀ (visited queue : List (String × Nat)),
    ∃ t, reachGo g d visited queue = visited ++ t := by
  intro visited queue
  induction visited, queue using reachGo.induct g d with
  | case1 visited queue h100 =>
    exact ⟨[], by rw [reachGo_cap h100, List.append_nil]⟩
  | case2 visited h100 =>
    exact ⟨[], by rw [reachGo_nil, List.append_nil]⟩
  | case3 visited h100 current depth rest hv ih =>
    rw [reachGo_cons_skipVisited h100 hv]
    exact ih
  | case4 visited h100 current depth rest hv hd ih =>
    rw [reachGo_cons_skipDepth h100 hv hd]
    exact ih
  | case5 visited h100 current depth rest hv hd hn ih =>
    rw [reachGo_cons_visitNone h100 hv hd hn]
    obtain ⟨t, ht⟩ := ih
    exact ⟨(current, depth) :: t, by rw [ht, List.append_assoc]; rfl⟩
  | case6 visited h100 current depth rest hv hd nd hn ih =>
    rw [reachGo_cons_visitSome h100 hv hd hn]
    obtain ⟨t, ht⟩ := ih
    exact ⟨(current, depth) :: t, by rw [ht, List.append_assoc]; rfl⟩

/-- When every queued entry is deeper than the bound, the loop drains the
queue without recording anything. -/
theorem reachGo_all_deep {g : CallGraph} {d : Nat} :
    ∀ (visited queue : List (String × Nat)), (∀ p ∈ queue, d < p.2) →
    reachGo g d visited queue = visited := by
  intro visited queue
  induction visited, queue using reachGo.induct g d with
  | case1 visited queue h100 =>
    intro _
    exact reachGo_cap h100
  | case2 visited h100 =>
    intro _
    exact reachGo_nil
  | case3 visited h100 current depth rest hv ih =>
    intro hq
    rw [reachGo_cons_skipVisited h100 hv]
    exact ih fun p hp => hq p (List.mem_cons_of_mem _ hp)
  | case4 visited h100 current depth rest hv hd ih =>
    intro hq
    rw [reachGo_cons_skipDepth h100 hv hd]
    exact ih fun p hp => hq p (List.mem_cons_of_mem _ hp)
  | case5 visited h100 current depth rest hv hd hn ih =>
    intro hq
    exact absurd (hq _ (List.mem_cons_self _ _)) hd
  | case6 visited h100 current depth rest hv hd nd hn ih =>
    intro hq
    exact absurd (hq _ (List.mem_cons_self _ _)) hd

/-- Invariant of the initial BFS state. -/
theorem reachInv_init (g : CallGraph) (s : String) (d : Nat) :
    ReachInv g s d [] [(s, 0)] := by
  refine ⟨by simp [keysA], by simp, ?_, by simp, Or.inr (List.mem_singleton_self _), ?_, ?_⟩
  · intro p hp
    have : p = (s, 0) := by simpa using hp
    subst this
    exact ReachN.refl
  · exact List.pairwise_singleton _ _
  · intro a ha b hb
    have ha2 : a = (s, 0) := by simpa using ha
    have hb2 : b = (s, 0) := by simpa using hb
    subst ha2
    subst hb2
    exact Nat.zero_le _

/-- Unfolding the first BFS iteration from the initial state. -/
theorem reachGo_start {g : CallGraph} {s : String} {d : Nat} {nd : CallNode}
    (hn : lookupA g.nodes s = some nd) :
    reachGo g d [] [(s, 0)] =
      reachGo g d [(s, 0)]
        ((nd.calls.filter (fun c => (lookupA [(s, 0)] c).isNone)).map
          (fun c => (c, 1))) := by
  have h := @reachGo_cons_visitSome g d [] [] s 0
    (by simp) (by simp [lookupA]) (by omega) nd hn
  simpa using h

theorem get_reachable_sound {g : CallGraph} {s : String} {d : Nat}
    (hs : (lookupA g.nodes s).isSome = true) :
    (keysA (g.get_reachable_from s d)).Nodup ∧
    ∀ p ∈ g.get_reachable_from s d, IsDist g s p.1 p.2 ∧ p.2 ≤ d := by
  unfold CallGraph.get_reachable_from
  rw [if_pos hs]
  exact reachGo_sound _ _ (reachInv_init g s d)

theorem get_reachable_lookup_start {g : CallGraph} {s : String} {d : Nat}
    (hs : (lookupA g.nodes s).isSome = true) :
    lookupA (g.get_reachable_from s d) s = some 0 := by
  rcases Option.isSome_iff_exists.mp hs with ⟨nd, hnd⟩
  unfold CallGraph.get_reachable_from
  rw [if_pos hs, reachGo_start hnd]
  obtain ⟨t, ht⟩ := reachGo_ext (g := g) (d := d) [(s, 0)]
    ((nd.calls.filter (fun c => (lookupA [(s, 0)] c).isNone)).map (fun c => (c, 1)))
  rw [ht]
  exact lookupA_append_left (by simp [lookupA])

theorem get_reachable_le_100 {g : CallGraph} {s : String} {d : Nat} :
    (g.get_reachable_from s d).length ≤ 100 := by
  unfold CallGraph.get_reachable_from
  split
  · exact reachGo_le_100 _ _ (by simp)
  · simp

theorem get_reachable_char {g : CallGraph} {s : String} {d : Nat}
    (hs : (lookupA g.nodes s).isSome = true)
    (hcap : (g.get_reachable_from s d).length < 100) :
    ∀ v k, lookupA (g.get_reachable_from s d) v = some k ↔ (IsDist g s v k ∧ k ≤ d) := by
  have hsound := get_reachable_sound (d := d) hs
  unfold CallGraph.get_reachable_from at hsound hcap ⊢
  rw [if_pos hs] at hsound hcap ⊢
  have hcomp := reachGo_complete [] [(s, 0)] (reachInv_init g s d) hcap
  intro v k
  constructor
  · intro hlk
    exact hsound.2 (v, k) (lookupA_mem hlk)
  · rintro ⟨hdist, hkd⟩
    obtain ⟨k', hk'⟩ := hcomp v k hdist.1 hkd
    have hvk' := hsound.2 (v, k') hk'
    have hke : k' = k := le_antisymm (hvk'.1.2 k hdist.1) (hdist.2 k' hvk'.1.1)
    subst hke
    exact lookupA_of_mem_nodup hsound.1 hk'

theorem get_reachable_zero {g : CallGraph} {s : String}
    (hs : (lookupA g.nodes s).isSome = true) :
    g.get_reachable_from s 0 = [(s, 0)] := by
  rcases Option.isSome_iff_exists.mp hs with ⟨nd, hnd⟩
  unfold CallGraph.get_reachable_from
  rw [if_pos hs, reachGo_start hnd]
  apply reachGo_all_deep
  intro p hp
  rcases List.mem_map.mp hp with ⟨c, _, rfl⟩
  omega

/-- A two-node graph `a → b` used as concrete input by witness theorems. -/
def gW : CallGraph :=
  ((CallGraph.empty.add_node
      { name := "a", module := "m", line := 1, node_type := "function",
        calls := [], called_by := [] }).add_node
      { name := "b", module := "m", line := 2, node_type := "function",
        calls := [], called_by := [] }).add_edge "a" "b"

theorem gW_reach1_eval : gW.get_reachable_from "a" 1 = [("a", 0), ("b", 1)] := by
  simp +decide [CallGraph.get_reachable_from, reachGo_cons_visitSome, reachGo_cons_visitNone,
    reachGo_cons_skipVisited, reachGo_cons_skipDepth, reachGo_nil, gW,
    CallGraph.empty, CallGraph.add_node, CallGraph.add_edge, setA, modifyA, lookupA]

theorem gW_reach2_eval : gW.get_reachable_from "a" 2 = [("a", 0), ("b", 1)] := by
  simp +decide [CallGraph.get_reachable_from, reachGo_cons_visitSome, reachGo_cons_visitNone,
    reachGo_cons_skipVisited, reachGo_cons_skipDepth, reachGo_nil, gW,
    CallGraph.empty, CallGraph.add_node, CallGraph.add_edge, setA, modifyA, lookupA]

/-- C2: for a known start node `n`, `get_reachable_from` maps `n` to depth 0;
it never returns more than 100 entries; whenever it returns fewer than 100
entries it contains exactly the nodes whose shortest-path distance from `n`
is at most `d`, each mapped to that exact distance; and at depth 0 it
returns exactly the singleton mapping of `n` to 0. -/
theorem C2_reachable_bfs (g : CallGraph) (n : String) (d : Nat)
    (h : (lookupA g.nodes n).isSome = true) :
    lookupA (g.get_reachable_from n d) n = some 0 ∧
    (g.get_reachable_from n d).length ≤ 100 ∧
    ((g.get_reachable_from n d).length < 100 →
      ∀ v k, lookupA (g.get_reachable_from n d) v = some k ↔ (IsDist g n v k ∧ k ≤ d)) ∧
    g.get_reachable_from n 0 = [(n, 0)] :=
  ⟨get_reachable_lookup_start h, get_reachable_le_100,
   fun hcap => get_reachable_char h hcap, get_reachable_zero h⟩

theorem C2_reachable_bfs_witness :
    (lookupA gW.nodes "a").isSome = true ∧
    (lookupA (gW.get_reachable_from "a" 1) "a" = some 0 ∧
     (gW.get_reachable_from "a" 1).length ≤ 100 ∧
     ((gW.get_reachable_from "a" 1).length < 100 →
       ∀ v k, lookupA (gW.get_reachable_from "a" 1) v = some k ↔
         (IsDist gW "a" v k ∧ k ≤ 1)) ∧
     gW.get_reachable_from "a" 0 = [("a", 0)]) :=
  ⟨rfl, C2_reachable_bfs gW "a" 1 rfl⟩

/-- C6: reachability is monotone in the depth bound — every key of
`get_reachable_from n d` is a key of `get_reachable_from n (d+1)` — provided
neither result hit the 100-node cap. -/
theorem C6_reachable_monotone (g : CallGraph) (n : String) (d : Nat)
    (h : (lookupA g.nodes n).isSome = true)
    (hcap_d : (g.get_reachable_from n d).length < 100)
    (hcap_d1 : (g.get_reachable_from n (d + 1)).length < 100) :
    ∀ v, v ∈ keysA (g.get_reachable_from n d) →
      v ∈ keysA (g.get_reachable_from n (d + 1)) := by
  intro v hv
  rcases mem_keysA.mp hv with ⟨k, hk⟩
  have hsd := (get_reachable_sound (d := d) h).2 (v, k) hk
  have hchar := get_reachable_char (d := d + 1) h hcap_d1
  have hlk : lookupA (g.get_reachable_from n (d + 1)) v = some k :=
    (hchar v k).mpr ⟨hsd.1, le_trans hsd.2 (Nat.le_succ d)⟩
  exact mem_keysA.mpr ⟨k, lookupA_mem hlk⟩

theorem C6_reachable_monotone_witness :
    ((lookupA gW.nodes "a").isSome = true ∧
     (gW.get_reachable_from "a" 1).length < 100 ∧
     (gW.get_reachable_from "a" 2).length < 100) ∧
    (∀ v, v ∈ keysA (gW.get_reachable_from "a" 1) →
      v ∈ keysA (gW.get_reachable_from "a" 2)) :=
  ⟨⟨rfl, by rw [gW_reach1_eval]; decide, by rw [gW_reach2_eval]; decide⟩,
   C6_reachable_monotone gW "a" 1 rfl
     (by rw [gW_reach1_eval]; decide) (by rw [gW_reach2_eval]; decide)⟩

/-- C8: an unknown start node makes `get_reachable_from` return the empty
mapping, and an unknown endpoint on either side makes `get_paths_between`
return the empty list; both are ordinary return values of the (total)
functions, not errors. -/
theorem C8_unknown_nodes (g : CallGraph) (s e : String) (d : Nat)
    (hs : lookupA g.nodes s = none) :
    g.get_reachable_from s d = [] ∧
    g.get_paths_between s e d = [] ∧
    g.get_paths_between e s d = [] := by
  unfold CallGraph.get_reachable_from CallGraph.get_paths_between
  rw [hs]
  simp

theorem C8_unknown_nodes_witness :
    lookupA gW.nodes "zz" = none ∧
    (gW.get_reachable_from "zz" 5 = [] ∧
     gW.get_paths_between "zz" "a" 5 = [] ∧
     gW.get_paths_between "a" "zz" 5 = []) :=
  ⟨rfl, C8_unknown_nodes gW "zz" "a" 5 rfl⟩

instance adjacentDec (g : CallGraph) (u v : String) : Decidable (adjacent g u v) :=
  match h : lookupA g.nodes u with
  | some nd =>
    if hv : v ∈ nd.calls then isTrue ⟨nd, h, hv⟩
    else
      isFalse (fun hadj => by
        rcases hadj with ⟨nd2, h2, hv2⟩
        rw [h] at h2
        injection h2 with e
        exact hv (e ▸ hv2))
  | none =>
    isFalse (fun hadj => by
      rcases hadj with ⟨nd2, h2, _⟩
      rw [h] at h2
      exact Option.noConfusion h2)

/-- `p` is a simple path from `a` to `b` along call edges: nonempty, starts at
`a`, ends at `b`, visits no node twice, and each consecutive pair is joined by
a call edge. -/
def SimplePath (g : CallGraph) (a b : String) (p : List String) : Prop :=
  p ≠ [] ∧ p.head? = some a ∧ p.getLast? = some b ∧ p.Nodup ∧
  List.Chain' (adjacent g) p

instance (g : CallGraph) (a b : String) (p : List String) :
    Decidable (SimplePath g a b p) := by
  unfold SimplePath
  infer_instance

theorem pathsGo_nil {g : CallGraph} {d : Nat} {e : String} :
    pathsGo g d e [] = [] := by
  rw [pathsGo]

theorem pathsGo_cons_skip {g : CallGraph} {d : Nat} {e current : String}
    {path : List String} {rest : List (String × List String)}
    (hd : d < path.length) :
    pathsGo g d e ((current, path) :: rest) = pathsGo g d e rest := by
  rw [pathsGo]
  simp only [if_pos hd]

theorem pathsGo_cons_emit {g : CallGraph} {d : Nat} {e : String}
    {path : List String} {rest : List (String × List String)}
    (hd : ¬ d < path.length) :
    pathsGo g d e ((e, path) :: rest) = path :: pathsGo g d e rest := by
  rw [pathsGo]
  simp [if_neg hd]

theorem pathsGo_cons_none {g : CallGraph} {d : Nat} {e current : String}
    {path : List String} {rest : List (String × List String)}
    (hd : ¬ d < path.length) (hne : ¬ current = e)
    (hn : lookupA g.nodes current = none) :
    pathsGo g d e ((current, path) :: rest) = pathsGo g d e rest := by
  rw [pathsGo]
  simp only [if_neg hd, if_neg hne]
  split <;> simp_all

theorem pathsGo_cons_some {g : CallGraph} {d : Nat} {e current : String}
    {path : List String} {rest : List (String × List String)}
    (hd : ¬ d < path.length) (hne : ¬ current = e)
    {nd : CallNode} (hn : lookupA g.nodes current = some nd) :
    pathsGo g d e ((current, path) :: rest)
      = pathsGo g d e
          (rest ++ (nd.calls.filter (fun c => decide (c ∉ path))).map
            (fun c => (c, path ++ [c]))) := by
  rw [pathsGo]
  simp only [if_neg hd, if_neg hne]
  split <;> simp_all

/-- Well-formedness of one queue entry of `get_paths_between`'s loop: the
carried path is a nonempty duplicate-free chain of call edges from `s`
ending at the entry's node. -/
def PEntryOK (g : CallGraph) (s : String) (q : String × List String) : Prop :=
  q.2 ≠ [] ∧ q.2.head? = some s ∧ q.2.getLast? = some q.1 ∧ q.2.Nodup ∧
  List.Chain' (adjacent g) q.2

theorem pEntryOK_extend {g : CallGraph} {s current : String} {path : List String}
    {nd : CallNode} (hok : PEntryOK g s (current, path))
    (hn : lookupA g.nodes current = some nd) {c : String}
    (hcc : c ∈ nd.calls) (hcp : c ∉ path) :
    PEntryOK g s (c, path ++ [c]) := by
  obtain ⟨hne, hhead, hlast, hnodup, hchain⟩ := hok
  refine ⟨by simp, ?_, ?_, ?_, ?_⟩
  · rcases List.head?_eq_some_iff.mp hhead with ⟨ys, rfl⟩
    rfl
  · exact List.getLast?_concat _
  · rw [List.nodup_append]
    refine ⟨hnodup, List.nodup_singleton _, ?_⟩
    intro x hx hx1
    have : x = c := by simpa using hx1
    exact hcp (this ▸ hx)
  · rw [List.chain'_append]
    refine ⟨hchain, List.chain'_singleton _, ?_⟩
    intro x hx y hy
    have hxc : current = x := by
      rw [hlast] at hx
      simpa using hx
    have hyc : c = y := by simpa using hy
    cases hxc
    cases hyc
    exact ⟨nd, hn, hcc⟩

/-- Soundness of the path-enumeration loop: every emitted path is a simple
path from `s` to `e` with at most `d` nodes. -/
theorem pathsGo_sound {g : CallGraph} {s e : String} {d : Nat} :
    ∀ queue, (∀ q ∈ queue, PEntryOK g s q) →
    ∀ p ∈ pathsGo g d e queue, SimplePath g s e p ∧ p.length ≤ d := by
  intro queue
  induction queue using pathsGo.induct g d e with
  | case1 =>
    intro _ p hp
    rw [pathsGo_nil] at hp
    exact absurd hp (List.not_mem_nil p)
  | case2 current path rest hd ih =>
    intro hq p hp
    rw [pathsGo_cons_skip hd] at hp
    exact ih (fun q hq2 => hq q (List.mem_cons_of_mem _ hq2)) p hp
  | case3 path rest hd ih =>
    intro hq p hp
    rw [pathsGo_cons_emit hd] at hp
    rcases List.mem_cons.mp hp with rfl | hmem
    · obtain ⟨hne, hhead, hlast, hnodup, hchain⟩ := hq _ (List.mem_cons_self _ _)
      exact ⟨⟨hne, hhead, hlast, hnodup, hchain⟩, Nat.not_lt.mp hd⟩
    · exact ih (fun q hq2 => hq q (List.mem_cons_of_mem _ hq2)) p hmem
  | case4 current path rest hd hne hn ih =>
    intro hq p hp
    rw [pathsGo_cons_none hd hne hn] at hp
    exact ih (fun q hq2 => hq q (List.mem_cons_of_mem _ hq2)) p hp
  | case5 current path rest hd hne nd hn ih =>
    intro hq p hp
    rw [pathsGo_cons_some hd hne hn] at hp
    refine ih ?_ p hp
    intro q hq2
    rcases List.mem_append.mp hq2 with hold | hnew
    · exact hq q (List.mem_cons_of_mem _ hold)
    · rcases List.mem_map.mp hnew with ⟨c, hcfil, rfl⟩
      have hcc : c ∈ nd.calls := List.mem_of_mem_filter hcfil
      have hcp : c ∉ path :=
        of_decide_eq_true (List.mem_filter.mp hcfil).2
      exact pEntryOK_extend (hq _ (List.mem_cons_self _ _)) hn hcc hcp

/-- Completeness of the path-enumeration loop: any simple path within the
node-count bound that extends some queued partial path gets emitted. -/
theorem pathsGo_complete {g : CallGraph} {s e : String} {d : Nat} :
    ∀ queue, (∀ q ∈ queue, q.2.getLast? = some q.1) →
    ∀ p, SimplePath g s e p → p.length ≤ d →
    (∃ q ∈ queue, ∃ t, p = q.2 ++ t) →
    p ∈ pathsGo g d e queue := by
  intro queue
  induction queue using pathsGo.induct g d e with
  | case1 =>
    rintro _ p _ _ ⟨q, hq, _⟩
    exact absurd hq (List.not_mem_nil q)
  | case2 current path rest hd ih =>
    rintro hinv p hsp hlen ⟨q, hq, t, ht⟩
    rw [pathsGo_cons_skip hd]
    rcases List.mem_cons.mp hq with rfl | hmem
    · exfalso
      have : path.length ≤ p.length := by
        rw [ht]
        simp
      omega
    · exact ih (fun q2 hq2 => hinv q2 (List.mem_cons_of_mem _ hq2)) p hsp hlen
        ⟨q, hmem, t, ht⟩
  | case3 path rest hd ih =>
    rintro hinv p hsp hlen ⟨q, hq, t, ht⟩
    rw [pathsGo_cons_emit hd]
    rcases List.mem_cons.mp hq with rfl | hmem
    · have hlaste : path.getLast? = some e := hinv _ (List.mem_cons_self _ _)
      rcases List.eq_nil_or_concat t with rfl | ⟨t', x, rfl⟩
      · rw [List.append_nil] at ht
        rw [ht]
        exact List.mem_cons_self _ _
      · exfalso
        rw [List.concat_eq_append] at ht
        have hpe : p.getLast? = some x := by
          rw [ht, List.getLast?_append_of_ne_nil _ (by simp)]
          exact List.getLast?_concat _
        have hxe : x = e := by
          have hlastp : p.getLast? = some e := hsp.2.2.1
          rw [hlastp] at hpe
          injection hpe with hh
          exact hh.symm
        subst hxe
        have hnd : p.Nodup := hsp.2.2.2.1
        rw [ht, List.nodup_append] at hnd
        have hepath : x ∈ path := by
          rcases List.mem_getLast?_eq_getLast
            (show x ∈ path.getLast? by rw [hlaste]; rfl) with ⟨hne2, he2⟩
          exact he2 ▸ List.getLast_mem hne2
        exact hnd.2.2 hepath (by simp)
    · exact List.mem_cons_of_mem _
        (ih (fun q2 hq2 => hinv q2 (List.mem_cons_of_mem _ hq2)) p hsp hlen ⟨q, hmem, t, ht⟩)
  | case4 current path rest hd hne hn ih =>
    rintro hinv p hsp hlen ⟨q, hq, t, ht⟩
    rw [pathsGo_cons_none hd hne hn]
    rcases List.mem_cons.mp hq with rfl | hmem
    · exfalso
      have hlastc : path.getLast? = some current := hinv _ (List.mem_cons_self _ _)
      rcases t with _ | ⟨x, t'⟩
      · rw [List.append_nil] at ht
        subst ht
        have : some current = some e := by rw [← hlastc, hsp.2.2.1]
        exact hne (Option.some.injEq .. ▸ this)
      · have hchain : List.Chain' (adjacent g) p := hsp.2.2.2.2
        rw [ht, List.chain'_append] at hchain
        have hadj : adjacent g current x := by
          refine hchain.2.2 current ?_ x rfl
          rw [hlastc]
          rfl
        rcases hadj with ⟨nd2, hnd2, _⟩
        rw [hn] at hnd2
        exact Option.noConfusion hnd2
    · exact ih (fun q2 hq2 => hinv q2 (List.mem_cons_of_mem _ hq2)) p hsp hlen
        ⟨q, hmem, t, ht⟩
  | case5 current path rest hd hne nd hn ih =>
    rintro hinv p hsp hlen ⟨q, hq, t, ht⟩
    rw [pathsGo_cons_some hd hne hn]
    have hinv2 : ∀ q2 ∈ rest ++ (nd.calls.filter (fun c => decide (c ∉ path))).map
        (fun c => (c, path ++ [c])), q2.2.getLast? = some q2.1 := by
      intro q2 hq2
      rcases List.mem_append.mp hq2 with hold | hnew
      · exact hinv q2 (List.mem_cons_of_mem _ hold)
      · rcases List.mem_map.mp hnew with ⟨c, _, rfl⟩
        exact List.getLast?_concat _
    rcases List.mem_cons.mp hq with rfl | hmem
    · have hlastc : path.getLast? = some current := hinv _ (List.mem_cons_self _ _)
      rcases t with _ | ⟨x, t'⟩
      · exfalso
        rw [List.append_nil] at ht
        subst ht
        have : some current = some e := by rw [← hlastc, hsp.2.2.1]
        exact hne (Option.some.injEq .. ▸ this)
      · have hchain : List.Chain' (adjacent g) p := hsp.2.2.2.2
        have hadj : adjacent g current x := by
          have hch2 := hchain
          rw [ht, List.chain'_append] at hch2
          refine hch2.2.2 current ?_ x rfl
          rw [hlastc]
          rfl
        obtain ⟨nd2, hnd2, hxc⟩ := hadj
        rw [hn] at hnd2
        injection hnd2 with end2
        subst end2
        have hxp : x ∉ path := by
          have hnd3 : p.Nodup := hsp.2.2.2.1
          rw [ht, List.nodup_append] at hnd3
          intro hmem2
          exact hnd3.2.2 hmem2 (List.mem_cons_self _ _)
        refine ih hinv2 p hsp hlen ?_
        refine ⟨(x, path ++ [x]), ?_, t', ?_⟩
        · refine List.mem_append_right _ ?_
          exact List.mem_map.mpr ⟨x, List.mem_filter.mpr ⟨hxc, decide_eq_true hxp⟩, rfl⟩
        · rw [ht, List.append_assoc]
          rfl
    · exact ih hinv2 p hsp hlen ⟨q, List.mem_append_left _ hmem, t, ht⟩

/-- C1 (counterexample): in the two-node graph `a → b`, the simple path
`[a, b]` has exactly one edge, yet `get_paths_between a b 1` returns nothing:
the `len(path) > max_depth` prune counts nodes, not edges, so paths of
exactly `maxDepth` edges are dropped.  This refutes the claim that every
simple path of at most `maxDepth` edges is returned. -/
theorem C1_paths_counterexample :
    gW.get_paths_between "a" "b" 1 = [] ∧
    SimplePath gW "a" "b" ["a", "b"] ∧
    ["a", "b"].length - 1 ≤ 1 := by
  refine ⟨?_, ?_, by decide⟩
  · simp +decide [CallGraph.get_paths_between, pathsGo_cons_some, pathsGo_cons_skip,
      pathsGo_cons_none, pathsGo_cons_emit, pathsGo_nil, gW, CallGraph.empty,
      CallGraph.add_node, CallGraph.add_edge, setA, modifyA, lookupA]
  · refine ⟨by decide, rfl, rfl, by decide, ?_⟩
    refine List.chain'_cons.mpr ⟨?_, List.chain'_singleton _⟩
    exact ⟨{ name := "a", module := "m", line := 1, node_type := "function",
             calls := ["b"], called_by := [] }, by decide, by decide⟩

/-- C1 (amended): for known endpoints, `get_paths_between a b d` returns
exactly the simple paths from `a` to `b` with at most `d` nodes — that is,
at most `d - 1` edges, one fewer than the claim's `d` edges. -/
theorem C1_paths_amended (g : CallGraph) (a b : String) (d : Nat)
    (ha : (lookupA g.nodes a).isSome = true) (hb : (lookupA g.nodes b).isSome = true) :
    ∀ p, p ∈ g.get_paths_between a b d ↔ (SimplePath g a b p ∧ p.length ≤ d) := by
  intro p
  unfold CallGraph.get_paths_between
  rw [if_pos (show ((lookupA g.nodes a).isSome && (lookupA g.nodes b).isSome) = true by
    rw [ha, hb]; rfl)]
  constructor
  · intro hp
    refine pathsGo_sound _ ?_ p hp
    intro q hq
    have : q = (a, [a]) := by simpa using hq
    subst this
    exact ⟨by simp, rfl, rfl, List.nodup_singleton _, List.chain'_singleton _⟩
  · rintro ⟨hsp, hlen⟩
    refine pathsGo_complete _ ?_ p hsp hlen ?_
    · intro q hq
      have : q = (a, [a]) := by simpa using hq
      subst this
      rfl
    · rcases List.head?_eq_some_iff.mp hsp.2.1 with ⟨ys, rfl⟩
      exact ⟨(a, [a]), List.mem_singleton_self _, ys, rfl⟩

theorem C1_paths_amended_witness :
    ((lookupA gW.nodes "a").isSome = true ∧ (lookupA gW.nodes "b").isSome = true) ∧
    (∀ p, p ∈ gW.get_paths_between "a" "b" 5 ↔
      (SimplePath gW "a" "b" p ∧ p.length ≤ 5)) :=
  ⟨⟨rfl, rfl⟩, C1_paths_amended gW "a" "b" 5 rfl rfl⟩

/-- Embeds `ast.arguments` restricted to the fields `_format_args` reads
(parameter names only; annotations and default-value expressions are not
represented, so call expressions inside default values are outside the
model's scope). -/
structure Args where
  posonlyargs : List String
  args : List String
  vararg : Option String
  kwonlyargs : List String
  kwarg : Option String
deriving Repr

/-- Embeds the fragment of Python's `ast` node language that
`src/analyzer/ast_parse.py` and `src/analyzer/callgraph.py` inspect:
module/def/class statements, imports, expression and return statements, and
name/attribute/call/constant/binary-operator expressions, each with the line
information the source reads (`lineno`, and `end_lineno` for definitions). -/
inductive Ast where
  | module (body : List Ast)
  | functionDef (name : String) (args : Args) (body : List Ast)
      (decorator_list : List Ast) (lineno end_lineno : Nat)
  | classDef (name : String) (bases : List Ast) (body : List Ast)
      (decorator_list : List Ast) (lineno end_lineno : Nat)
  | importS (names : List String)
  | importFrom (moduleName : String) (names : List String)
  | exprStmt (value : Ast)
  | ret (value : Option Ast)
  | passS
  | name (id : String) (lineno : Nat)
  | attrExpr (value : Ast) (attr : String) (lineno : Nat)
  | call (func : Ast) (args : List Ast) (lineno : Nat)
  | constant (lineno : Nat)
  | binop (left right : Ast) (lineno : Nat)

/-- The child nodes of an `Ast` node, in the field order `ast.iter_child_nodes`
yields them (ignoring the non-walkable fields the model does not carry). -/
def Ast.children : Ast → List Ast
  | .module body => body
  | .functionDef _ _ body dec _ _ => body ++ dec
  | .classDef _ bases body dec _ _ => bases ++ body ++ dec
  | .importS _ => []
  | .importFrom _ _ => []
  | .exprStmt v => [v]
  | .ret (some v) => [v]
  | .ret none => []
  | .passS => []
  | .name _ _ => []
  | .attrExpr v _ _ => [v]
  | .call f args _ => f :: args
  | .constant _ => []
  | .binop l r _ => [l, r]

mutual

def Ast.size : Ast → Nat
  | .module body => 1 + sizeListAst body
  | .functionDef _ _ body dec _ _ => 1 + sizeListAst body + sizeListAst dec
  | .classDef _ bases body dec _ _ =>
      1 + sizeListAst bases + sizeListAst body + sizeListAst dec
  | .importS _ => 1
  | .importFrom _ _ => 1
  | .exprStmt v => 1 + Ast.size v
  | .ret (some v) => 1 + Ast.size v
  | .ret none => 1
  | .passS => 1
  | .name _ _ => 1
  | .attrExpr v _ _ => 1 + Ast.size v
  | .call f args _ => 1 + Ast.size f + sizeListAst args
  | .constant _ => 1
  | .binop l r _ => 1 + Ast.size l + Ast.size r

def sizeListAst : List Ast → Nat
  | [] => 0
  | a :: rest => Ast.size a + sizeListAst rest

end

theorem sizeListAst_append (l1 l2 : List Ast) :
    sizeListAst (l1 ++ l2) = sizeListAst l1 + sizeListAst l2 := by
  induction l1 with
  | nil => simp [sizeListAst]
  | cons a rest ih =>
    simp only [List.cons_append, sizeListAst, List.append_eq, ih]
    omega

theorem children_size_lt (a : Ast) : sizeListAst a.children + 1 ≤ a.size := by
  cases a with
  | module body => simp [Ast.children, Ast.size]; omega
  | functionDef n ar body dec l e =>
    simp [Ast.children, Ast.size, sizeListAst_append]; omega
  | classDef n bs body dec l e =>
    simp [Ast.children, Ast.size, sizeListAst_append]; omega
  | importS ns => simp [Ast.children, Ast.size, sizeListAst]
  | importFrom m ns => simp [Ast.children, Ast.size, sizeListAst]
  | exprStmt v => simp [Ast.children, Ast.size, sizeListAst]; omega
  | ret v =>
    cases v with
    | some v => simp [Ast.children, Ast.size, sizeListAst]; omega
    | none => simp [Ast.children, Ast.size, sizeListAst]
  | passS => simp [Ast.children, Ast.size, sizeListAst]
  | name i l => simp [Ast.children, Ast.size, sizeListAst]
  | attrExpr v at2 l => simp [Ast.children, Ast.size, sizeListAst]; omega
  | call f ar l => simp [Ast.children, Ast.size, sizeListAst]; omega
  | constant l => simp [Ast.children, Ast.size, sizeListAst]
  | binop lh rh l => simp [Ast.children, Ast.size, sizeListAst]; omega

theorem sizeListAst_children_flat (l : List Ast) :
    sizeListAst (l.flatMap Ast.children) + l.length ≤ sizeListAst l := by
  induction l with
  | nil => simp [sizeListAst]
  | cons a rest ih =>
    simp only [List.flatMap_cons, sizeListAst_append, List.length_cons, sizeListAst]
    have := children_size_lt a
    omega

theorem Ast.size_pos (a : Ast) : 1 ≤ a.size := by
  cases a with
  | ret v => cases v <;> simp [Ast.size] <;> omega
  | _ => simp [Ast.size] <;> omega

/-- Fuel-indexed breadth-first traversal; the fuel only drives structural
recursion and is irrelevant once it is at least the total size of the
frontier (`walkFrontierF_congr`). -/
def walkFrontierF : Nat → List Ast → List Ast
  | _, [] => []
  | 0, _ :: _ => []
  | fuel + 1, a :: rest =>
      (a :: rest) ++ walkFrontierF fuel ((a :: rest).flatMap Ast.children)

theorem sizeListAst_pos (a : Ast) (rest : List Ast) :
    1 ≤ sizeListAst (a :: rest) := by
  have := Ast.size_pos a
  simp only [sizeListAst]
  omega

theorem walkFrontierF_congr :
    ∀ (fuel1 fuel2 : Nat) (f : List Ast), sizeListAst f ≤ fuel1 →
      sizeListAst f ≤ fuel2 → walkFrontierF fuel1 f = walkFrontierF fuel2 f := by
  intro fuel1
  induction fuel1 with
  | zero =>
    intro fuel2 f h1 _
    cases f with
    | nil => cases fuel2 <;> rfl
    | cons a rest => exact absurd h1 (by have := sizeListAst_pos a rest; omega)
  | succ n ih =>
    intro fuel2 f h1 h2
    cases f with
    | nil => cases fuel2 <;> rfl
    | cons a rest =>
      cases fuel2 with
      | zero => exact absurd h2 (by have := sizeListAst_pos a rest; omega)
      | succ m =>
        simp only [walkFrontierF]
        have hflat := sizeListAst_children_flat (a :: rest)
        simp only [List.length_cons] at hflat
        rw [ih m ((a :: rest).flatMap Ast.children) (by omega) (by omega)]

/-- Breadth-first traversal over a frontier of nodes; `walkFrontier [t]`
enumerates exactly the nodes `ast.walk(t)` yields, in the same order. -/
def walkFrontier (frontier : List Ast) : List Ast :=
  walkFrontierF (sizeListAst frontier) frontier

theorem walkFrontier_nil : walkFrontier [] = [] := rfl

theorem walkFrontier_cons (a : Ast) (rest : List Ast) :
    walkFrontier (a :: rest)
      = (a :: rest) ++ walkFrontier ((a :: rest).flatMap Ast.children) := by
  unfold walkFrontier
  obtain ⟨n, hn⟩ : ∃ n, sizeListAst (a :: rest) = n + 1 :=
    ⟨sizeListAst (a :: rest) - 1, by have := sizeListAst_pos a rest; omega⟩
  rw [hn]
  simp only [walkFrontierF]
  have hflat := sizeListAst_children_flat (a :: rest)
  simp only [List.length_cons] at hflat
  rw [walkFrontierF_congr n (sizeListAst ((a :: rest).flatMap Ast.children)) _
    (by omega) (le_refl _)]

/-- Embeds `ast.walk`: breadth-first enumeration of all nodes of a tree. -/
def Ast.walkList (t : Ast) : List Ast := walkFrontier [t]

/-- Embeds `FunctionInfo` of `src/analyzer/model.py`. -/
structure FunctionInfo where
  name : String
  signature : String
  decorators : List String
deriving Repr, DecidableEq

/-- Embeds `ClassInfo` of `src/analyzer/model.py`. -/
structure ClassInfo where
  name : String
  bases : List String
  decorators : List String
  methods : List FunctionInfo
deriving Repr, DecidableEq

/-- Embeds `ModuleFacts` of `src/analyzer/model.py`. -/
structure ModuleFacts where
  module : String
  path : String
  imports : List String
  classes : List ClassInfo
  functions : List FunctionInfo
deriving Repr, DecidableEq

/-- A parse failure of the foreign `ast.parse` (a `SyntaxError` in Python),
carrying the unit's path. -/
structure ParseErr where
  path : String
deriving Repr, DecidableEq

/-- Embeds `_format_args` of `src/analyzer/ast_parse.py`: parameter names in
declared order with `/`, `*`, `*name` and `**name` markers and no default
values. -/
def formatArgs (a : Args) : String :=
  let parts : List String :=
    a.posonlyargs
    ++ (if a.posonlyargs.isEmpty then [] else ["/"])
    ++ a.args
    ++ (match a.vararg with
        | some v => ["*" ++ v]
        | none => if a.kwonlyargs.isEmpty then [] else ["*"])
    ++ a.kwonlyargs
    ++ (match a.kwarg with
        | some k => ["**" ++ k]
        | none => [])
  String.intercalate ", " parts

/-- Models `ast.unparse` (foreign code) on the expression shapes the analyzed
sources put in base-class and decorator position: names and dotted
attributes; other expressions get a fixed placeholder rendering. -/
def unparseExpr : Ast → String
  | .name id _ => id
  | .attrExpr v attr _ => unparseExpr v ++ "." ++ attr
  | _ => "<expr>"

/-- The `while isinstance(cursor, ast.Attribute)` loop of
`_get_decorator_names`, already in reversed (left-to-right) order. -/
def dottedParts : Ast → List String
  | .attrExpr v attr _ => dottedParts v ++ [attr]
  | .name id _ => [id]
  | _ => []

/-- Embeds `_get_decorator_names` of `src/analyzer/ast_parse.py`. -/
def getDecoratorNames (dec : List Ast) : List String :=
  dec.map (fun d =>
    match d with
    | .name id _ => id
    | .attrExpr v attr ln => String.intercalate "." (dottedParts (.attrExpr v attr ln))
    | other => unparseExpr other)

/-- The `ast.FunctionDef` branch of `parse_python_module`, shared by
functions and methods. -/
def mkFunctionInfo (nm : String) (args : Args) (dec : List Ast) : FunctionInfo :=
  { name := nm, signature := "(" ++ formatArgs args ++ ")",
    decorators := getDecoratorNames dec }

/-- Insertion of a string into an ascending list, for `sortStrings`. -/
def insertSorted (x : String) : List String → List String
  | [] => [x]
  | y :: rest => if x ≤ y then x :: y :: rest else y :: insertSorted x rest

/-- Models Python's `sorted` on lists of strings (ascending lexicographic
order by code points, which Lean's `String` order matches). -/
def sortStrings (l : List String) : List String := l.foldr insertSorted []

/-- Embeds `parse_python_module` of `src/analyzer/ast_parse.py`, taking the
outcome of the foreign `ast.parse` as input; a parse failure propagates to
the caller unchanged. -/
def parse_python_module (module_name path : String) (src : Except ParseErr Ast) :
    Except ParseErr ModuleFacts :=
  match src with
  | .error e => .error e
  | .ok tree =>
    let body := match tree with
      | .module b => b
      | _ => []
    let step := fun (acc : List String × List ClassInfo × List FunctionInfo) (node : Ast) =>
      let (imports, classes, functions) := acc
      match node with
      | .importS names => (imports ++ names, classes, functions)
      | .importFrom m names =>
        (imports ++ names.map (fun nm => if m = "" then nm else m ++ "." ++ nm),
         classes, functions)
      | .classDef nm bases cbody dec _ _ =>
        let methods := cbody.foldl (fun ms sub =>
          match sub with
          | .functionDef mn margs _ mdec _ _ => ms ++ [mkFunctionInfo mn margs mdec]
          | _ => ms) []
        (imports,
         classes ++ [{ name := nm, bases := bases.map unparseExpr,
                       decorators := getDecoratorNames dec, methods := methods }],
         functions)
      | .functionDef fn fargs _ fdec _ _ =>
        (imports, classes, functions ++ [mkFunctionInfo fn fargs fdec])
      | _ => acc
    let res := body.foldl step ([], [], [])
    .ok { module := module_name, path := path,
          imports := sortStrings res.1.eraseDups,
          classes := res.2.1, functions := res.2.2 }

/-- The callee-name reduction of `extract_call_relations` (lines 132-138):
a direct identifier, or the rightmost attribute of an attribute access. -/
def calleeName : Ast → Option String
  | .name id _ => some id
  | .attrExpr _ attr _ => some attr
  | _ => none

/-- Whether an AST node is a `FunctionDef` whose `lineno..end_lineno` span
contains `line` (the containment test of lines 143-145). -/
def isEnclosingFD (line : Nat) : Ast → Bool
  | .functionDef _ _ _ _ l e => decide (l ≤ line) && decide (line ≤ e)
  | _ => false

/-- The name of a `FunctionDef` node. -/
def fdName : Ast → Option String
  | .functionDef n _ _ _ _ _ => some n
  | _ => none

/-- The enclosing-function search of `extract_call_relations` (lines
140-147): the first `FunctionDef` in `ast.walk` order whose line span
contains the call's line. -/
def enclosingFunction (tree : Ast) (line : Nat) : Option String :=
  (tree.walkList.find? (isEnclosingFD line)).bind fdName

/-- The `for method in node.body` loop of the `ClassDef` branch of
`extract_call_relations`'s first pass: add a `Class.method` node per
class-body-level `FunctionDef`. -/
def addMethodNode (moduleName nm : String) (g2 : CallGraph) (m : Ast) : CallGraph :=
  match m with
  | .functionDef mn _ _ _ ml _ =>
      g2.add_node { name := nm ++ "." ++ mn, module := moduleName, line := ml,
                    node_type := "method", calls := [], called_by := [] }
  | _ => g2

/-- The first pass of `extract_call_relations` (lines 97-126): one node per
`FunctionDef` met by `ast.walk` (bare name), plus a class node and
`Class.method` nodes per `ClassDef`. -/
def firstPass (moduleName : String) (g : CallGraph) (a : Ast) : CallGraph :=
  match a with
  | .functionDef nm _ _ _ l _ =>
      g.add_node { name := nm, module := moduleName, line := l,
                   node_type := "function", calls := [], called_by := [] }
  | .classDef nm _ body _ l _ =>
      body.foldl (addMethodNode moduleName nm)
        (g.add_node { name := nm, module := moduleName, line := l,
                      node_type := "class", calls := [], called_by := [] })
  | _ => g

/-- The second pass of `extract_call_relations` (lines 128-150): for each call
expression whose callee reduces to a bare name, attribute it to the first
containing `FunctionDef` in walk order and add an edge when the callee is a
known node. -/
def secondPass (tree : Ast) (g : CallGraph) (a : Ast) : CallGraph :=
  match a with
  | .call func _ line =>
    match calleeName func with
    | none => g
    | some callee =>
      match enclosingFunction tree line with
      | none => g
      | some fn =>
        if (lookupA g.nodes callee).isSome then g.add_edge fn callee else g
  | _ => g

/-- The successfully-parsed branch of `extract_call_relations`. -/
def extractFromTree (moduleName : String) (tree : Ast) : CallGraph :=
  tree.walkList.foldl (secondPass tree)
    (tree.walkList.foldl (firstPass moduleName) CallGraph.empty)

/-- Embeds `extract_call_relations` of `src/analyzer/callgraph.py`, taking
the outcome of the foreign `ast.parse` on `source_code` as input; the
`try/except` makes a parse failure yield the empty call graph. -/
def extract_call_relations (mf : ModuleFacts) (src : Except ParseErr Ast) :
    CallGraph :=
  match src with
  | .error _ => CallGraph.empty
  | .ok tree => extractFromTree mf.module tree

/-- Merging one per-unit fragment into the global graph (lines 167-172 of
`src/analyzer/callgraph.py`): re-insert every node record as it stands at
the end of fragment construction — in Python the very same `CallNode`
objects, whose `calls`/`called_by` lists already reflect the fragment's
edges — then replay the fragment's edges through `add_edge`. -/
def mergeFrag (global : CallGraph) (frag : CallGraph) : CallGraph :=
  frag.edges.foldl (fun g e => g.add_edge e.1 e.2)
    (frag.nodes.foldl (fun g p => g.add_node p.2) global)

/-- Embeds `build_module_callgraph` of `src/analyzer/callgraph.py`. -/
def build_module_callgraph (modules : List ModuleFacts)
    (file_contents : List (String × Except ParseErr Ast)) : CallGraph :=
  modules.foldl (fun global m =>
    match lookupA file_contents m.path with
    | none => global
    | some src => mergeFrag global (extract_call_relations m src)) CallGraph.empty

/-- The AST `ast.parse` yields for the spec's scenario source text
`import os\nclass A(Base):\n def m(self, x, *, y=1, **kw): return x\ndef f(a, b=2, *args, **kwargs): return a+b`
(line numbers and argument lists checked against CPython; the default
values 1 and 2 live in the `arguments` fields the model does not carry,
exactly because `_format_args` never reads them). -/
def c9Tree : Ast := .module [
  .importS ["os"],
  .classDef "A" [.name "Base" 2]
    [.functionDef "m" ⟨[], ["self", "x"], none, ["y"], some "kw"⟩
      [.ret (some (.name "x" 3))] [] 3 3] [] 2 3,
  .functionDef "f" ⟨[], ["a", "b"], some "args", [], some "kwargs"⟩
    [.ret (some (.binop (.name "a" 4) (.name "b" 4) 4))] [] 4 4]

/-- C9: parsing the scenario module yields imports `["os"]`, one class `A`
with base `Base` whose method `m` has signature `(self, x, *, y, **kw)`, and
one function `f` with signature `(a, b, *args, **kwargs)`: default values are
not rendered, the bare `*` appears for keyword-only parameters without a
vararg, and variadic parameters carry `*`/`**` markers. -/
theorem C9_parse_scenario :
    parse_python_module "m" "sample.py" (.ok c9Tree) =
      .ok { module := "m", path := "sample.py", imports := ["os"],
            classes := [{ name := "A", bases := ["Base"], decorators := [],
                          methods := [{ name := "m",
                                        signature := "(self, x, *, y, **kw)",
                                        decorators := [] }] }],
            functions := [{ name := "f",
                            signature := "(a, b, *args, **kwargs)",
                            decorators := [] }] } := by
  rfl

/-- C10: `extract_call_relations` is total — in the embedding it is a plain
function — and on a parse failure it returns the empty graph (zero nodes,
zero edges), which merges as a no-op into `build_module_callgraph`'s global
graph, while `parse_python_module` propagates the same failure to its
caller. -/
theorem C10_parse_failure_behavior (mf : ModuleFacts) (e : ParseErr) :
    extract_call_relations mf (.error e) = CallGraph.empty ∧
    (extract_call_relations mf (.error e)).nodes = [] ∧
    (extract_call_relations mf (.error e)).edges = [] ∧
    (∀ g : CallGraph, mergeFrag g (extract_call_relations mf (.error e)) = g) ∧
    parse_python_module mf.module mf.path (.error e) = .error e :=
  ⟨rfl, rfl, rfl, fun _ => rfl, rfl⟩

/-- The AST of `class A:\n    def m(self): pass`. -/
def c5Tree : Ast := .module [
  .classDef "A" [] [.functionDef "m" ⟨[], ["self"], none, [], none⟩
    [.passS] [] 2 2] [] 1 2]

/-- C5 (counterexample): a class with one method yields THREE nodes —
`A`, `A.m`, and a spurious bare-name node `m` — because the first pass
iterates `ast.walk`, which reaches the method's own `FunctionDef` node and
adds it under its bare name, contradicting the claim that no additional
bare-name node exists for a method. -/
theorem C5_nodes_counterexample :
    keysA (extractFromTree "m" c5Tree).nodes = ["A", "A.m", "m"] ∧
    "m" ∈ keysA (extractFromTree "m" c5Tree).nodes ∧
    ¬ keysA (extractFromTree "m" c5Tree).nodes = ["A", "A.m"] := by
  refine ⟨by decide, by decide, by decide⟩

/-- The AST of `def f():\n    def g():\n        h()\ndef h(): pass`
(CPython spans: `f` 1-3, `g` 2-3, `h` 4-4; the call is on line 3). -/
def c3Tree : Ast := .module [
  .functionDef "f" ⟨[], [], none, [], none⟩
    [.functionDef "g" ⟨[], [], none, [], none⟩
      [.exprStmt (.call (.name "h" 3) [] 3)] [] 2 3] [] 1 3,
  .functionDef "h" ⟨[], [], none, [], none⟩ [.passS] [] 4 4]

/-- C3 (counterexample): the call `h()` on line 3 lies inside both `f`
(span 1-3) and the nested `g` (span 2-3); the tightest containing span is
`g`'s, yet the produced edge is `(f, h)` — `ast.walk` order is
breadth-first, so the OUTERMOST containing `FunctionDef` is found first,
refuting the tightest-span attribution claim. -/
theorem C3_edges_counterexample :
    (extractFromTree "m" c3Tree).edges = [("f", "h")] ∧
    ¬ ("g", "h") ∈ (extractFromTree "m" c3Tree).edges ∧
    isEnclosingFD 3 (.functionDef "g" ⟨[], [], none, [], none⟩
      [.exprStmt (.call (.name "h" 3) [] 3)] [] 2 3) = true ∧
    (3 - 2 : Nat) < 3 - 1 := by
  refine ⟨by decide, by decide, by decide, by decide⟩

theorem keysA_modifyA {β : Type} (m : List (String × β)) (k : String) (f : β → β) :
    keysA (modifyA m k f) = keysA m := by
  induction m with
  | nil => rfl
  | cons p rest ih =>
    obtain ⟨k', v'⟩ := p
    by_cases hk : k' = k <;> simp [modifyA, hk, keysA, ih] <;>
      simpa [keysA] using ih

theorem mem_keysA_setA {β : Type} (m : List (String × β)) (k : String) (v : β)
    (x : String) : x ∈ keysA (setA m k v) ↔ x ∈ keysA m ∨ x = k := by
  induction m with
  | nil => simp [setA, keysA]
  | cons p rest ih =>
    obtain ⟨k', v'⟩ := p
    by_cases hk : k' = k
    · subst hk
      simp [setA, keysA]
      tauto
    · simp only [setA, if_neg hk, keysA, List.map_cons, List.mem_cons]
      rw [show (keysA (setA rest k v) = (setA rest k v).map Prod.fst) from rfl] at ih
      rw [show (keysA rest = rest.map Prod.fst) from rfl] at ih
      tauto

theorem add_node_keys (g : CallGraph) (nd : CallNode) (x : String) :
    x ∈ keysA (g.add_node nd).nodes ↔ x ∈ keysA g.nodes ∨ x = nd.name :=
  mem_keysA_setA _ _ _ _

theorem add_edge_keys (g : CallGraph) (a b : String) :
    keysA (g.add_edge a b).nodes = keysA g.nodes := by
  unfold CallGraph.add_edge
  split
  · simp [keysA_modifyA]
  · rfl

theorem secondPass_keys (tree : Ast) (g : CallGraph) (a : Ast) :
    keysA (secondPass tree g a).nodes = keysA g.nodes := by
  unfold secondPass
  split
  · split
    · rfl
    · split
      · rfl
      · split
        · exact add_edge_keys g _ _
        · rfl
  · rfl

theorem foldl_secondPass_keys (tree : Ast) :
    ∀ (l : List Ast) (g : CallGraph),
      keysA (l.foldl (secondPass tree) g).nodes = keysA g.nodes := by
  intro l
  induction l with
  | nil => intro g; rfl
  | cons a rest ih =>
    intro g
    simp only [List.foldl_cons]
    rw [ih, secondPass_keys]

/-- The node keys that the first pass of `extract_call_relations` creates for
one AST node: the bare name of a `FunctionDef`, and for a `ClassDef` its name
together with `Class.method` for each class-body-level `FunctionDef`. -/
def DeclaresKey (a : Ast) (x : String) : Prop :=
  match a with
  | .functionDef nm _ _ _ _ _ => x = nm
  | .classDef nm _ body _ _ _ =>
      x = nm ∨ ∃ m ∈ body, ∃ mn ar mb md ml me,
        m = Ast.functionDef mn ar mb md ml me ∧ x = nm ++ "." ++ mn
  | _ => False

theorem addMethodNode_fold_keys (mname nm : String) :
    ∀ (body : List Ast) (g : CallGraph) (x : String),
      x ∈ keysA (body.foldl (addMethodNode mname nm) g).nodes ↔
        x ∈ keysA g.nodes ∨ ∃ m ∈ body, ∃ mn ar mb md ml me,
          m = Ast.functionDef mn ar mb md ml me ∧ x = nm ++ "." ++ mn := by
  intro body
  induction body with
  | nil => intro g x; simp
  | cons m rest ih =>
    intro g x
    simp only [List.foldl_cons]
    rw [ih]
    cases m with
    | functionDef mn ar mb md ml me =>
      rw [show addMethodNode mname nm g (Ast.functionDef mn ar mb md ml me)
          = g.add_node { name := nm ++ "." ++ mn, module := mname, line := ml,
                         node_type := "method", calls := [], called_by := [] }
        from rfl]
      rw [add_node_keys]
      constructor
      · rintro ((h | h) | h)
        · exact Or.inl h
        · exact Or.inr ⟨_, List.mem_cons_self _ _, mn, ar, mb, md, ml, me, rfl, h⟩
        · rcases h with ⟨m2, hm2, w⟩
          exact Or.inr ⟨m2, List.mem_cons_of_mem _ hm2, w⟩
      · rintro (h | ⟨m2, hm2, mn2, ar2, mb2, md2, ml2, me2, hm2e, hx⟩)
        · exact Or.inl (Or.inl h)
        · rcases List.mem_cons.mp hm2 with he | hr
          · subst he
            injection hm2e with e1 _
            exact Or.inl (Or.inr (by rw [hx, e1]))
          · exact Or.inr ⟨m2, hr, mn2, ar2, mb2, md2, ml2, me2, hm2e, hx⟩
    | _ =>
      constructor
      · rintro (h | h)
        · exact Or.inl h
        · rcases h with ⟨m2, hm2, w⟩
          exact Or.inr ⟨m2, List.mem_cons_of_mem _ hm2, w⟩
      · rintro (h | ⟨m2, hm2, mn2, ar2, mb2, md2, ml2, me2, hm2e, hx⟩)
        · exact Or.inl h
        · rcases List.mem_cons.mp hm2 with he | hr
          · subst he
            exact absurd hm2e (by intro hcon; cases hcon)
          · exact Or.inr ⟨m2, hr, mn2, ar2, mb2, md2, ml2, me2, hm2e, hx⟩

theorem firstPass_keys (mname : String) (g : CallGraph) (a : Ast) (x : String) :
    x ∈ keysA (firstPass mname g a).nodes ↔
      x ∈ keysA g.nodes ∨ DeclaresKey a x := by
  cases a with
  | functionDef nm ar body dec l e =>
    rw [show firstPass mname g (Ast.functionDef nm ar body dec l e)
        = g.add_node { name := nm, module := mname, line := l,
                       node_type := "function", calls := [], called_by := [] }
      from rfl]
    exact add_node_keys _ _ _
  | classDef nm bs body dec l e =>
    rw [show firstPass mname g (Ast.classDef nm bs body dec l e)
        = body.foldl (addMethodNode mname nm)
            (g.add_node { name := nm, module := mname, line := l,
                          node_type := "class", calls := [], called_by := [] })
      from rfl]
    rw [addMethodNode_fold_keys, add_node_keys]
    unfold DeclaresKey
    tauto
  | _ => simp [firstPass, DeclaresKey]

theorem foldl_firstPass_keys (mname : String) :
    ∀ (l : List Ast) (g : CallGraph) (x : String),
      x ∈ keysA (l.foldl (firstPass mname) g).nodes ↔
        x ∈ keysA g.nodes ∨ ∃ a ∈ l, DeclaresKey a x := by
  intro l
  induction l with
  | nil => intro g x; simp
  | cons a rest ih =>
    intro g x
    simp only [List.foldl_cons]
    rw [ih, firstPass_keys]
    constructor
    · rintro ((h | h) | ⟨a2, ha2, hd⟩)
      · exact Or.inl h
      · exact Or.inr ⟨a, List.mem_cons_self _ _, h⟩
      · exact Or.inr ⟨a2, List.mem_cons_of_mem _ ha2, hd⟩
    · rintro (h | ⟨a2, ha2, hd⟩)
      · exact Or.inl (Or.inl h)
      · rcases List.mem_cons.mp ha2 with he | hr
        · subst he
          exact Or.inl (Or.inr hd)
        · exact Or.inr ⟨a2, hr, hd⟩

theorem extract_keys_char (mname : String) (tree : Ast) (x : String) :
    x ∈ keysA (extractFromTree mname tree).nodes ↔
      ∃ a ∈ tree.walkList, DeclaresKey a x := by
  unfold extractFromTree
  rw [foldl_secondPass_keys, foldl_firstPass_keys]
  simp [keysA, CallGraph.empty]

/-- C5 (amended): the node key set of `extract_call_relations` consists of
the bare name of EVERY function definition reached by `ast.walk` — including
methods and definitions nested inside function bodies — plus the name of
every class definition so reached, plus `Class.method` for every
class-body-level method; contrary to the claim, methods thus also get a
bare-name node and nested definitions do get nodes. -/
theorem C5_nodes_amended (mname : String) (tree : Ast) (k : String) :
    k ∈ keysA (extractFromTree mname tree).nodes ↔
      ((∃ a ∈ tree.walkList, ∃ ar body dec l e,
          a = Ast.functionDef k ar body dec l e) ∨
       (∃ a ∈ tree.walkList, ∃ bs body dec l e,
          a = Ast.classDef k bs body dec l e) ∨
       (∃ a ∈ tree.walkList, ∃ C bs body dec l e,
          a = Ast.classDef C bs body dec l e ∧
          ∃ m ∈ body, ∃ mn ar2 mb md ml me,
            m = Ast.functionDef mn ar2 mb md ml me ∧ k = C ++ "." ++ mn)) := by
  rw [extract_keys_char]
  constructor
  · rintro ⟨a, ha, hd⟩
    cases a with
    | functionDef nm ar body dec l e =>
      unfold DeclaresKey at hd
      exact Or.inl ⟨_, ha, ar, body, dec, l, e, by rw [hd]⟩
    | classDef nm bs body dec l e =>
      unfold DeclaresKey at hd
      rcases hd with rfl | ⟨m, hm, mn, ar2, mb, md, ml, me, hme, hk⟩
      · exact Or.inr (Or.inl ⟨_, ha, bs, body, dec, l, e, rfl⟩)
      · exact Or.inr (Or.inr ⟨_, ha, nm, bs, body, dec, l, e, rfl,
          m, hm, mn, ar2, mb, md, ml, me, hme, hk⟩)
    | _ => exact absurd hd (by unfold DeclaresKey; exact not_false)
  · rintro (⟨a, ha, ar, body, dec, l, e, rfl⟩ |
            ⟨a, ha, bs, body, dec, l, e, rfl⟩ |
            ⟨a, ha, C, bs, body, dec, l, e, rfl, m, hm, mn, ar2, mb, md, ml, me, hme, hk⟩)
    · exact ⟨_, ha, rfl⟩
    · exact ⟨_, ha, Or.inl rfl⟩
    · exact ⟨_, ha, Or.inr ⟨m, hm, mn, ar2, mb, md, ml, me, hme, hk⟩⟩

/-- The edge contributed by one AST node in the second pass, as a function of
the first-pass graph `g0`: a call whose callee reduces to a bare name that is
a node key, attributed to the first containing `FunctionDef` in walk order. -/
def edgeForCall (tree : Ast) (g0 : CallGraph) (a : Ast) : Option (String × String) :=
  match a with
  | .call func _ line =>
    match calleeName func with
    | none => none
    | some callee =>
      match enclosingFunction tree line with
      | none => none
      | some fn =>
        if (lookupA g0.nodes callee).isSome then some (fn, callee) else none
  | _ => none

theorem find?_first {α : Type} (p : α → Bool) :
    ∀ (l : List α) (a : α), l.find? p = some a ↔
      ∃ l1 l2, l = l1 ++ a :: l2 ∧ p a = true ∧ ∀ b ∈ l1, p b = false := by
  intro l
  induction l with
  | nil =>
    intro a
    simp only [List.find?_nil]
    constructor
    · intro h
      exact Option.noConfusion h
    · rintro ⟨l1, l2, he, _, _⟩
      exact absurd he (by simp)
  | cons x rest ih =>
    intro a
    rw [List.find?_cons]
    by_cases hp : p x = true
    · rw [hp]
      constructor
      · intro h
        injection h with h
        exact ⟨[], rest, by simp [h], by rw [← h]; exact hp, by simp⟩
      · rintro ⟨l1, l2, he, hpa, hl1⟩
        cases l1 with
        | nil =>
          injection he with h1 _
          rw [h1]
        | cons y l1' =>
          injection he with h1 _
          subst h1
          exact absurd hp (by simp [hl1 x (List.mem_cons_self _ _)])
    · rw [Bool.not_eq_true] at hp
      rw [hp]
      rw [ih]
      constructor
      · rintro ⟨l1, l2, he, hpa, hl1⟩
        refine ⟨x :: l1, l2, by simp [he], hpa, ?_⟩
        intro b hb
        rcases List.mem_cons.mp hb with rfl | hbr
        · exact Bool.not_eq_true _ ▸ (by simpa using hp)
        · exact hl1 b hbr
      · rintro ⟨l1, l2, he, hpa, hl1⟩
        cases l1 with
        | nil =>
          injection he with h1 _
          subst h1
          exact absurd hpa (by rw [hp]; exact Bool.false_ne_true)
        | cons y l1' =>
          injection he with h1 h2
          subst h1
          exact ⟨l1', l2, h2, hpa, fun b hb => hl1 b (List.mem_cons_of_mem _ hb)⟩

theorem isEnclosingFD_shape {line : Nat} {a : Ast}
    (h : isEnclosingFD line a = true) :
    ∃ nm ar body dec l e, a = Ast.functionDef nm ar body dec l e ∧
      l ≤ line ∧ line ≤ e := by
  cases a with
  | functionDef nm ar body dec l e =>
    have h2 : l ≤ line ∧ line ≤ e := by simpa [isEnclosingFD] using h
    exact ⟨nm, ar, body, dec, l, e, rfl, h2.1, h2.2⟩
  | _ => exact absurd h (by simp [isEnclosingFD])

theorem enclosing_in_keys (mname : String) {tree : Ast} {line : Nat} {fn : String}
    (h : enclosingFunction tree line = some fn) (g : CallGraph) :
    fn ∈ keysA (tree.walkList.foldl (firstPass mname) g).nodes := by
  unfold enclosingFunction at h
  cases hf : tree.walkList.find? (isEnclosingFD line) with
  | none => rw [hf] at h; exact Option.noConfusion h
  | some a =>
    rw [hf] at h
    have hmem : a ∈ tree.walkList := List.mem_of_find?_eq_some hf
    have hp : isEnclosingFD line a = true := List.find?_some hf
    rcases isEnclosingFD_shape hp with ⟨nm, ar, body, dec, l, e, rfl, _, _⟩
    have hname : fn = nm := by
      have h3 : fdName (Ast.functionDef nm ar body dec l e) = some fn := h
      simp [fdName] at h3
      exact h3.symm
    rw [foldl_firstPass_keys]
    exact Or.inr ⟨_, hmem, by rw [hname]; rfl⟩

theorem add_node_edges (g : CallGraph) (nd : CallNode) :
    (g.add_node nd).edges = g.edges := rfl

theorem addMethodNode_fold_edges (mname nm : String) :
    ∀ (body : List Ast) (g1 : CallGraph),
      (body.foldl (addMethodNode mname nm) g1).edges = g1.edges := by
  intro body
  induction body with
  | nil => intro g1; rfl
  | cons m mrest mih =>
    intro g1
    simp only [List.foldl_cons]
    rw [mih]
    cases m <;> rfl

theorem foldl_firstPass_edges (mname : String) :
    ∀ (l : List Ast) (g : CallGraph),
      (l.foldl (firstPass mname) g).edges = g.edges := by
  intro l
  induction l with
  | nil => intro g; rfl
  | cons a rest ih =>
    intro g
    simp only [List.foldl_cons]
    rw [ih]
    cases a with
    | classDef nm bs body dec l e =>
      rw [show firstPass mname g (Ast.classDef nm bs body dec l e)
          = body.foldl (addMethodNode mname nm)
              (g.add_node { name := nm, module := mname, line := l,
                            node_type := "class", calls := [], called_by := [] })
        from rfl]
      rw [addMethodNode_fold_edges]
      rfl
    | _ => rfl

theorem add_edge_edges_of_present {g : CallGraph} {a b : String}
    (ha : (lookupA g.nodes a).isSome = true)
    (hb : (lookupA g.nodes b).isSome = true) :
    (g.add_edge a b).edges = g.edges ++ [(a, b)] := by
  unfold CallGraph.add_edge
  rw [if_pos (by rw [ha, hb]; rfl)]

theorem foldl_secondPass_edges (mname : String) (tree : Ast) (g0 : CallGraph) :
    ∀ (l : List Ast) (g : CallGraph),
      keysA g.nodes = keysA g0.nodes →
      (∀ line fn, enclosingFunction tree line = some fn →
        fn ∈ keysA g0.nodes) →
      (l.foldl (secondPass tree) g).edges
        = g.edges ++ l.filterMap (edgeForCall tree g0) := by
  intro l
  induction l with
  | nil => intro g _ _; simp
  | cons a rest ih =>
    intro g hkeys hfn
    simp only [List.foldl_cons]
    cases a with
    | call func cargs line =>
      cases hc : calleeName func with
      | none =>
        rw [show secondPass tree g (Ast.call func cargs line) = g from by
          simp [secondPass, hc]]
        rw [List.filterMap_cons_none (by simp [edgeForCall, hc])]
        exact ih g hkeys hfn
      | some callee =>
        cases he : enclosingFunction tree line with
        | none =>
          rw [show secondPass tree g (Ast.call func cargs line) = g from by
            simp [secondPass, hc, he]]
          rw [List.filterMap_cons_none (by simp [edgeForCall, hc, he])]
          exact ih g hkeys hfn
        | some fn =>
          have hsame : (lookupA g.nodes callee).isSome
              = (lookupA g0.nodes callee).isSome := by
            by_cases hin : callee ∈ keysA g0.nodes
            · have h1 : (lookupA g.nodes callee).isSome = true := by
                rw [lookupA_isSome_iff]
                exact mem_keysA.mp (hkeys ▸ hin)
              have h2 : (lookupA g0.nodes callee).isSome = true := by
                rw [lookupA_isSome_iff]
                exact mem_keysA.mp hin
              rw [h1, h2]
            · have h1 : (lookupA g.nodes callee).isSome = false := by
                rw [Bool.eq_false_iff]
                intro hcon
                exact hin (hkeys ▸ mem_keysA.mpr (lookupA_isSome_iff.mp hcon))
              have h2 : (lookupA g0.nodes callee).isSome = false := by
                rw [Bool.eq_false_iff]
                intro hcon
                exact hin (mem_keysA.mpr (lookupA_isSome_iff.mp hcon))
              rw [h1, h2]
          by_cases hcal : (lookupA g0.nodes callee).isSome = true
          · have hck : (lookupA g.nodes callee).isSome = true := by
              rw [hsame]
              exact hcal
            rw [show secondPass tree g (Ast.call func cargs line)
                = g.add_edge fn callee from by
              simp [secondPass, hc, he, hck]]
            have h2 : edgeForCall tree g0 (Ast.call func cargs line)
                = some (fn, callee) := by
              simp [edgeForCall, hc, he, hcal]
            rw [List.filterMap_cons_some h2]
            have hfnk : (lookupA g.nodes fn).isSome = true := by
              rw [lookupA_isSome_iff]
              exact mem_keysA.mp (hkeys ▸ hfn line fn he)
            rw [ih (g.add_edge fn callee) (by rw [add_edge_keys]; exact hkeys) hfn]
            rw [add_edge_edges_of_present hfnk hck]
            simp
          · have hck : (lookupA g.nodes callee).isSome = false := by
              rw [hsame]
              exact Bool.not_eq_true _ ▸ (by simpa using hcal)
            rw [show secondPass tree g (Ast.call func cargs line) = g from by
              simp [secondPass, hc, he, hck]]
            rw [List.filterMap_cons_none (by
              simp [edgeForCall, hc, he, hcal])]
            exact ih g hkeys hfn
    | _ =>
      simp only [secondPass, edgeForCall, List.filterMap_cons]
      exact ih g hkeys hfn

theorem edgeForCall_some {tree : Ast} {g0 : CallGraph} {a : Ast}
    {e : String × String} (h : edgeForCall tree g0 a = some e) :
    (∃ line, enclosingFunction tree line = some e.1) ∧
    (lookupA g0.nodes e.2).isSome = true := by
  cases a with
  | call func cargs line =>
    cases hc : calleeName func with
    | none => rw [show edgeForCall tree g0 (Ast.call func cargs line) = none from by
        simp [edgeForCall, hc]] at h; exact Option.noConfusion h
    | some callee =>
      cases he : enclosingFunction tree line with
      | none => rw [show edgeForCall tree g0 (Ast.call func cargs line) = none from by
          simp [edgeForCall, hc, he]] at h; exact Option.noConfusion h
      | some fn =>
        by_cases hcal : (lookupA g0.nodes callee).isSome = true
        · rw [show edgeForCall tree g0 (Ast.call func cargs line)
              = some (fn, callee) from by simp [edgeForCall, hc, he, hcal]] at h
          injection h with h
          subst h
          exact ⟨⟨line, he⟩, hcal⟩
        · rw [show edgeForCall tree g0 (Ast.call func cargs line) = none from by
            simp [edgeForCall, hc, he, hcal]] at h
          exact Option.noConfusion h
  | _ => exact absurd h (by simp [edgeForCall])

/-- The AST of `def a(): unknown_fn()` (the claim's scenario). -/
def c3aTree : Ast := .module [
  .functionDef "a" ⟨[], [], none, [], none⟩
    [.exprStmt (.call (.name "unknown_fn" 1) [] 1)] [] 1 1]

/-- C3 (amended): per call expression whose callee reduces to a bare name,
one edge is produced from the FIRST `FunctionDef` in breadth-first `ast.walk`
order whose line span contains the call's line (for nested definitions the
outermost, not the tightest; for methods the bare method name) — and only
when that enclosing function exists and the callee name is a node key;
every edge's endpoints are node keys; module-level calls and unknown callees
yield no edge, so `def a(): unknown_fn()` gives node `a` and zero edges. -/
theorem C3_edges_amended (mname : String) (tree : Ast) :
    (extractFromTree mname tree).edges
      = tree.walkList.filterMap
          (edgeForCall tree (tree.walkList.foldl (firstPass mname) CallGraph.empty)) ∧
    (∀ e ∈ (extractFromTree mname tree).edges,
      e.1 ∈ keysA (extractFromTree mname tree).nodes ∧
      e.2 ∈ keysA (extractFromTree mname tree).nodes) ∧
    (∀ line fn, enclosingFunction tree line = some fn ↔
      ∃ l1 a l2, tree.walkList = l1 ++ a :: l2 ∧ isEnclosingFD line a = true ∧
        fdName a = some fn ∧ ∀ b ∈ l1, isEnclosingFD line b = false) ∧
    keysA (extractFromTree "m" c3aTree).nodes = ["a"] ∧
    (extractFromTree "m" c3aTree).edges = [] := by
  have hmain : (extractFromTree mname tree).edges
      = tree.walkList.filterMap
          (edgeForCall tree (tree.walkList.foldl (firstPass mname) CallGraph.empty)) := by
    unfold extractFromTree
    rw [foldl_secondPass_edges mname tree _ tree.walkList _ rfl
      (fun line fn h => enclosing_in_keys mname h CallGraph.empty)]
    rw [foldl_firstPass_edges]
    rfl
  refine ⟨hmain, ?_, ?_, by decide, by decide⟩
  · intro e he
    rw [hmain] at he
    rcases List.mem_filterMap.mp he with ⟨a, _, hsome⟩
    obtain ⟨⟨line, hline⟩, hcal⟩ := edgeForCall_some hsome
    have hkeys : keysA (extractFromTree mname tree).nodes
        = keysA (tree.walkList.foldl (firstPass mname) CallGraph.empty).nodes := by
      unfold extractFromTree
      rw [foldl_secondPass_keys]
    constructor
    · rw [hkeys]
      exact enclosing_in_keys mname hline CallGraph.empty
    · rw [hkeys]
      exact mem_keysA.mpr (lookupA_isSome_iff.mp hcal)
  · intro line fn
    unfold enclosingFunction
    constructor
    · intro h
      cases hf : tree.walkList.find? (isEnclosingFD line) with
      | none => rw [hf] at h; exact Option.noConfusion h
      | some a =>
        rw [hf] at h
        have hfd : fdName a = some fn := h
        rcases (find?_first _ _ _).mp hf with ⟨l1, l2, hdec, hp, hl1⟩
        exact ⟨l1, a, l2, hdec, hp, hfd, hl1⟩
    · rintro ⟨l1, a, l2, hdec, hp, hfd, hl1⟩
      rw [(find?_first (isEnclosingFD line) tree.walkList a).mpr ⟨l1, l2, hdec, hp, hl1⟩]
      exact hfd

/-- The node dictionary has no duplicate keys (true of every graph the code
builds, since Python dicts cannot). -/
def NodupKeys (g : CallGraph) : Prop := (keysA g.nodes).Nodup

/-- Every edge's endpoints are node keys (maintained by `add_edge`'s guard). -/
def EdgesClosed (g : CallGraph) : Prop :=
  ∀ e ∈ g.edges, e.1 ∈ keysA g.nodes ∧ e.2 ∈ keysA g.nodes

/-- Every binding's key is the stored node's `name` (Python stores
`nodes[node.name] = node`). -/
def KeyIsName (g : CallGraph) : Prop := ∀ p ∈ g.nodes, p.2.name = p.1

/-- The `calls`/`called_by` lists of every node agree with the graph's own
edge list — the consistency the spec demands. -/
def Consistent (g : CallGraph) : Prop :=
  ∀ p ∈ g.nodes,
    p.2.calls = (g.edges.filter (fun e => decide (e.1 = p.1))).map Prod.snd ∧
    p.2.called_by = (g.edges.filter (fun e => decide (e.2 = p.1))).map Prod.fst

theorem mem_setA {β : Type} {m : List (String × β)} {k : String} {v : β}
    {p : String × β} (h : p ∈ setA m k v) : p ∈ m ∨ p = (k, v) := by
  induction m with
  | nil => simpa [setA] using h
  | cons q rest ih =>
    obtain ⟨k', v'⟩ := q
    by_cases hk : k' = k
    · rw [setA, if_pos hk] at h
      rcases List.mem_cons.mp h with he | hm
      · exact Or.inr he
      · exact Or.inl (List.mem_cons_of_mem _ hm)
    · rw [setA, if_neg hk] at h
      rcases List.mem_cons.mp h with he | hm
      · exact Or.inl (by rw [he]; exact List.mem_cons_self _ _)
      · rcases ih hm with h1 | h2
        · exact Or.inl (List.mem_cons_of_mem _ h1)
        · exact Or.inr h2

theorem nodup_setA {β : Type} {m : List (String × β)} (k : String) (v : β)
    (hnd : (keysA m).Nodup) : (keysA (setA m k v)).Nodup := by
  induction m with
  | nil => simp [setA, keysA]
  | cons q rest ih =>
    obtain ⟨k', v'⟩ := q
    simp only [keysA, List.map_cons, List.nodup_cons] at hnd
    by_cases hk : k' = k
    · subst hk
      rw [setA, if_pos rfl]
      simp only [keysA, List.map_cons, List.nodup_cons]
      exact hnd
    · rw [setA, if_neg hk]
      simp only [keysA, List.map_cons, List.nodup_cons]
      refine ⟨?_, ih hnd.2⟩
      intro hcon
      rcases (mem_keysA_setA rest k v k').mp (by simpa [keysA] using hcon) with h1 | h2
      · exact hnd.1 (by simpa [keysA] using h1)
      · exact hk h2

theorem setA_not_mem {β : Type} {m : List (String × β)} {k : String} (v : β)
    (h : k ∉ keysA m) : setA m k v = m ++ [(k, v)] := by
  induction m with
  | nil => rfl
  | cons q rest ih =>
    obtain ⟨k', v'⟩ := q
    simp only [keysA, List.map_cons, List.mem_cons, not_or] at h
    rw [setA, if_neg (fun hc => h.1 hc.symm)]
    rw [ih (by simpa [keysA] using h.2)]
    rfl

theorem modifyA_eq_map_of_nodup {β : Type} :
    ∀ {m : List (String × β)}, (keysA m).Nodup → ∀ (k : String) (f : β → β),
      modifyA m k f = m.map (fun p => if p.1 = k then (p.1, f p.2) else p) := by
  intro m
  induction m with
  | nil => intro _ k f; rfl
  | cons q rest ih =>
    intro hnd k f
    obtain ⟨k', v'⟩ := q
    simp only [keysA, List.map_cons, List.nodup_cons] at hnd
    by_cases hk : k' = k
    · subst hk
      rw [modifyA, if_pos rfl]
      have hrest : rest.map (fun p => if p.1 = k' then (p.1, f p.2) else p) = rest := by
        have hcong : ∀ p ∈ rest, (if p.1 = k' then (p.1, f p.2) else p) = p := by
          intro p hp
          rw [if_neg]
          intro hc
          exact hnd.1 (hc ▸ mem_keysA.mpr ⟨p.2, by simpa using hp⟩)
        rw [List.map_congr_left hcong]
        exact List.map_id rest
      simp [hrest]
    · rw [modifyA, if_neg hk]
      simp only [List.map_cons, if_neg hk]
      rw [ih hnd.2 k f]

/-- The per-binding effect of `add_edge a b` on the node dictionary. -/
def edgeStep (a b : String) (p : String × CallNode) : String × CallNode :=
  if (if p.1 = a then (p.1, { p.2 with calls := p.2.calls ++ [b] }) else p).1 = b then
    ((if p.1 = a then (p.1, { p.2 with calls := p.2.calls ++ [b] }) else p).1,
     { (if p.1 = a then (p.1, { p.2 with calls := p.2.calls ++ [b] }) else p).2 with
       called_by :=
         (if p.1 = a then (p.1, { p.2 with calls := p.2.calls ++ [b] }) else p).2.called_by
           ++ [a] })
  else (if p.1 = a then (p.1, { p.2 with calls := p.2.calls ++ [b] }) else p)

theorem edgeStep_fst (a b : String) (p : String × CallNode) :
    (edgeStep a b p).1 = p.1 := by
  unfold edgeStep
  by_cases h1 : p.1 = a <;> simp [h1] <;> split <;> simp

theorem edgeStep_parts (a b : String) (p : String × CallNode) :
    (edgeStep a b p).2.calls = p.2.calls ++ (if p.1 = a then [b] else []) ∧
    (edgeStep a b p).2.called_by = p.2.called_by ++ (if p.1 = b then [a] else []) ∧
    (edgeStep a b p).2.name = p.2.name := by
  unfold edgeStep
  by_cases h1 : p.1 = a
  · by_cases h2 : p.1 = b
    · have hab : a = b := h1.symm.trans h2
      simp [h1, h2, hab]
    · have hab : ¬ a = b := fun hc => h2 (h1.trans hc)
      simp [h1, h2, hab]
  · by_cases h2 : p.1 = b
    · have hab : ¬ b = a := fun hc => h1 (h2.trans hc)
      simp [h1, h2, hab]
    · simp [h1, h2]

theorem keysA_map_fst_preserving {F : (String × CallNode) → (String × CallNode)}
    (hF : ∀ p, (F p).1 = p.1) (m : List (String × CallNode)) :
    keysA (m.map F) = keysA m := by
  unfold keysA
  rw [List.map_map]
  exact List.map_congr_left (fun p _ => hF p)

theorem add_edge_nodes_of_present {g : CallGraph} {a b : String}
    (hnd : NodupKeys g) (ha : (lookupA g.nodes a).isSome = true)
    (hb : (lookupA g.nodes b).isSome = true) :
    (g.add_edge a b).nodes = g.nodes.map (edgeStep a b) := by
  unfold CallGraph.add_edge
  rw [if_pos (by rw [ha, hb]; rfl)]
  show modifyA (modifyA g.nodes a _) b _ = _
  rw [modifyA_eq_map_of_nodup hnd a _]
  rw [modifyA_eq_map_of_nodup (by
    rw [keysA_map_fst_preserving (fun p => by by_cases h : p.1 = a <;> simp [h])]
    exact hnd) b _]
  rw [List.map_map]
  apply List.map_congr_left
  intro p _
  unfold edgeStep
  rfl

theorem add_edge_not_present {g : CallGraph} {a b : String}
    (h : ¬ ((lookupA g.nodes a).isSome && (lookupA g.nodes b).isSome) = true) :
    g.add_edge a b = g := by
  unfold CallGraph.add_edge
  rw [if_neg h]

theorem nodupKeys_add_edge {g : CallGraph} (a b : String) (h : NodupKeys g) :
    NodupKeys (g.add_edge a b) := by
  unfold NodupKeys
  rw [add_edge_keys]
  exact h

theorem mem_modifyA {β : Type} {m : List (String × β)} {k : String} {f : β → β}
    {p : String × β} (h : p ∈ modifyA m k f) :
    ∃ q ∈ m, p = q ∨ p = (q.1, f q.2) := by
  induction m with
  | nil => simpa [modifyA] using h
  | cons q0 rest ih =>
    obtain ⟨k', v'⟩ := q0
    by_cases hk : k' = k
    · rw [modifyA, if_pos hk] at h
      rcases List.mem_cons.mp h with he | hm
      · exact ⟨(k', v'), List.mem_cons_self _ _, Or.inr he⟩
      · exact ⟨p, List.mem_cons_of_mem _ hm, Or.inl rfl⟩
    · rw [modifyA, if_neg hk] at h
      rcases List.mem_cons.mp h with he | hm
      · exact ⟨(k', v'), List.mem_cons_self _ _, Or.inl he⟩
      · rcases ih hm with ⟨q, hq, hor⟩
        exact ⟨q, List.mem_cons_of_mem _ hq, hor⟩

theorem keyIsName_add_edge {g : CallGraph} (a b : String) (h : KeyIsName g) :
    KeyIsName (g.add_edge a b) := by
  unfold CallGraph.add_edge
  split
  · intro p hp
    rcases mem_modifyA hp with ⟨q, hq, hor⟩
    rcases mem_modifyA hq with ⟨r, hr, hor2⟩
    have hr2 := h r hr
    rcases hor2 with rfl | rfl <;> rcases hor with rfl | rfl <;> simpa using hr2
  · exact fun p hp => h p hp

theorem edgesClosed_add_edge {g : CallGraph} (a b : String) (hnd : NodupKeys g)
    (h : EdgesClosed g) : EdgesClosed (g.add_edge a b) := by
  by_cases hcond : ((lookupA g.nodes a).isSome && (lookupA g.nodes b).isSome) = true
  · rw [Bool.and_eq_true] at hcond
    intro e he
    have hkeys : keysA (g.add_edge a b).nodes = keysA g.nodes := add_edge_keys g a b
    rw [show (g.add_edge a b).edges = g.edges ++ [(a, b)] from
      add_edge_edges_of_present hcond.1 hcond.2] at he
    rcases List.mem_append.mp he with hold | hnew
    · rw [hkeys]
      exact h e hold
    · have : e = (a, b) := by simpa using hnew
      subst this
      rw [hkeys]
      exact ⟨mem_keysA.mpr (lookupA_isSome_iff.mp hcond.1),
             mem_keysA.mpr (lookupA_isSome_iff.mp hcond.2)⟩
  · rw [add_edge_not_present hcond]
    exact h

theorem consistent_add_edge {g : CallGraph} (a b : String) (hnd : NodupKeys g)
    (h : Consistent g) : Consistent (g.add_edge a b) := by
  by_cases hcond : ((lookupA g.nodes a).isSome && (lookupA g.nodes b).isSome) = true
  · rw [Bool.and_eq_true] at hcond
    intro p hp
    rw [add_edge_nodes_of_present hnd hcond.1 hcond.2] at hp
    rcases List.mem_map.mp hp with ⟨q, hq, rfl⟩
    have hparts := edgeStep_parts a b q
    have hcons := h q hq
    have hfst : (edgeStep a b q).1 = q.1 := edgeStep_fst a b q
    rw [show (g.add_edge a b).edges = g.edges ++ [(a, b)] from
      add_edge_edges_of_present hcond.1 hcond.2]
    constructor
    · rw [hfst, hparts.1, hcons.1, List.filter_append, List.map_append]
      congr 1
      by_cases hqa : q.1 = a <;> simp [hqa, eq_comm]
    · rw [hfst, hparts.2.1, hcons.2, List.filter_append, List.map_append]
      congr 1
      by_cases hqb : q.1 = b <;> simp [hqb, eq_comm]
  · rw [add_edge_not_present hcond]
    exact h

/-- Every stored node still has empty `calls`/`called_by` (true after the
first pass, before any edge is added). -/
def BlankNodes (g : CallGraph) : Prop :=
  ∀ p ∈ g.nodes, p.2.calls = [] ∧ p.2.called_by = []

theorem secondPass_shape (tree : Ast) (g : CallGraph) (a : Ast) :
    secondPass tree g a = g ∨ ∃ x y, secondPass tree g a = g.add_edge x y := by
  cases a with
  | call func cargs line =>
    cases hc : calleeName func with
    | none =>
      exact Or.inl (by simp [secondPass, hc])
    | some callee =>
      cases he : enclosingFunction tree line with
      | none =>
        exact Or.inl (by simp [secondPass, hc, he])
      | some fn =>
        by_cases hl : (lookupA g.nodes callee).isSome = true
        · exact Or.inr ⟨fn, callee, by simp [secondPass, hc, he, hl]⟩
        · exact Or.inl (by simp [secondPass, hc, he, hl])
  | _ => exact Or.inl rfl

theorem add_node_props {g : CallGraph} (nd : CallNode)
    (h1 : NodupKeys g) (h2 : KeyIsName g) (h3 : BlankNodes g)
    (hnd : nd.calls = [] ∧ nd.called_by = []) :
    NodupKeys (g.add_node nd) ∧ KeyIsName (g.add_node nd) ∧
    BlankNodes (g.add_node nd) := by
  refine ⟨nodup_setA _ _ h1, ?_, ?_⟩
  · intro p hp
    rcases mem_setA hp with hm | he
    · exact h2 p hm
    · rw [he]
  · intro p hp
    rcases mem_setA hp with hm | he
    · exact h3 p hm
    · rw [he]
      exact hnd

theorem addMethodNode_fold_props (mname nm : String) :
    ∀ (body : List Ast) (g : CallGraph),
      NodupKeys g → KeyIsName g → BlankNodes g →
      NodupKeys (body.foldl (addMethodNode mname nm) g) ∧
      KeyIsName (body.foldl (addMethodNode mname nm) g) ∧
      BlankNodes (body.foldl (addMethodNode mname nm) g) := by
  intro body
  induction body with
  | nil => intro g h1 h2 h3; exact ⟨h1, h2, h3⟩
  | cons m mrest mih =>
    intro g h1 h2 h3
    simp only [List.foldl_cons]
    cases m with
    | functionDef mn ar mb md ml me =>
      have := add_node_props
        { name := nm ++ "." ++ mn, module := mname, line := ml,
          node_type := "method", calls := [], called_by := [] }
        h1 h2 h3 ⟨rfl, rfl⟩
      exact mih _ this.1 this.2.1 this.2.2
    | _ => exact mih g h1 h2 h3

theorem firstPass_props (mname : String) (g : CallGraph) (a : Ast)
    (h1 : NodupKeys g) (h2 : KeyIsName g) (h3 : BlankNodes g) :
    NodupKeys (firstPass mname g a) ∧ KeyIsName (firstPass mname g a) ∧
    BlankNodes (firstPass mname g a) := by
  cases a with
  | functionDef nm ar body dec l e =>
    exact add_node_props
      { name := nm, module := mname, line := l,
        node_type := "function", calls := [], called_by := [] } h1 h2 h3 ⟨rfl, rfl⟩
  | classDef nm bs body dec l e =>
    have hstep := add_node_props
      { name := nm, module := mname, line := l,
        node_type := "class", calls := [], called_by := [] } h1 h2 h3 ⟨rfl, rfl⟩
    exact addMethodNode_fold_props mname nm body _ hstep.1 hstep.2.1 hstep.2.2
  | _ => exact ⟨h1, h2, h3⟩

theorem foldl_firstPass_props (mname : String) :
    ∀ (l : List Ast) (g : CallGraph),
      NodupKeys g → KeyIsName g → BlankNodes g →
      NodupKeys (l.foldl (firstPass mname) g) ∧
      KeyIsName (l.foldl (firstPass mname) g) ∧
      BlankNodes (l.foldl (firstPass mname) g) := by
  intro l
  induction l with
  | nil => intro g h1 h2 h3; exact ⟨h1, h2, h3⟩
  | cons a rest ih =>
    intro g h1 h2 h3
    simp only [List.foldl_cons]
    have := firstPass_props mname g a h1 h2 h3
    exact ih _ this.1 this.2.1 this.2.2

theorem foldl_secondPass_props (tree : Ast) :
    ∀ (l : List Ast) (g : CallGraph),
      NodupKeys g → KeyIsName g → EdgesClosed g → Consistent g →
      NodupKeys (l.foldl (secondPass tree) g) ∧
      KeyIsName (l.foldl (secondPass tree) g) ∧
      EdgesClosed (l.foldl (secondPass tree) g) ∧
      Consistent (l.foldl (secondPass tree) g) := by
  intro l
  induction l with
  | nil => intro g h1 h2 h3 h4; exact ⟨h1, h2, h3, h4⟩
  | cons a rest ih =>
    intro g h1 h2 h3 h4
    simp only [List.foldl_cons]
    rcases secondPass_shape tree g a with he | ⟨x, y, he⟩
    · rw [he]
      exact ih g h1 h2 h3 h4
    · rw [he]
      exact ih _ (nodupKeys_add_edge x y h1) (keyIsName_add_edge x y h2)
        (edgesClosed_add_edge x y h1 h3) (consistent_add_edge x y h1 h4)

/-- Every graph `extract_call_relations` produces has duplicate-free keys,
name-keyed bindings, edges between existing nodes, and `calls`/`called_by`
lists consistent with its own edge list. -/
theorem extract_graph_props (mf : ModuleFacts) (src : Except ParseErr Ast) :
    NodupKeys (extract_call_relations mf src) ∧
    KeyIsName (extract_call_relations mf src) ∧
    EdgesClosed (extract_call_relations mf src) ∧
    Consistent (extract_call_relations mf src) := by
  cases src with
  | error e =>
    refine ⟨by simp [extract_call_relations, NodupKeys, CallGraph.empty, keysA], ?_, ?_, ?_⟩ <;>
      intro p hp <;> simp [extract_call_relations, CallGraph.empty] at hp
  | ok tree =>
    show NodupKeys (extractFromTree mf.module tree) ∧ _ ∧ _ ∧ _
    unfold extractFromTree
    have hg0 := foldl_firstPass_props mf.module tree.walkList CallGraph.empty
      (by simp [NodupKeys, CallGraph.empty, keysA])
      (by intro p hp; simp [CallGraph.empty] at hp)
      (by intro p hp; simp [CallGraph.empty] at hp)
    have hedges : (tree.walkList.foldl (firstPass mf.module) CallGraph.empty).edges
        = [] := by
      rw [foldl_firstPass_edges]
      rfl
    have hclosed : EdgesClosed (tree.walkList.foldl (firstPass mf.module)
        CallGraph.empty) := by
      intro e he
      rw [hedges] at he
      exact absurd he (List.not_mem_nil e)
    have hcons : Consistent (tree.walkList.foldl (firstPass mf.module)
        CallGraph.empty) := by
      intro p hp
      rw [hedges]
      exact ⟨(hg0.2.2 p hp).1, (hg0.2.2 p hp).2⟩
    have := foldl_secondPass_props tree tree.walkList _ hg0.1 hg0.2.1 hclosed hcons
    exact ⟨this.1, this.2.1, this.2.2.1, this.2.2.2⟩

/-- The cumulative effect on a node dictionary of replaying a list of edges
through `add_edge`: each binding's `calls` gains the callees of the replayed
edges it is caller of, in order, and dually for `called_by`. -/
def appendEdgesN (ns : List (String × CallNode)) (E : List (String × String)) :
    List (String × CallNode) :=
  ns.map (fun p => (p.1, { p.2 with
    calls := p.2.calls ++ (E.filter (fun e => decide (e.1 = p.1))).map Prod.snd,
    called_by := p.2.called_by ++ (E.filter (fun e => decide (e.2 = p.1))).map Prod.fst }))

theorem appendEdgesN_nil (ns : List (String × CallNode)) :
    appendEdgesN ns [] = ns := by
  unfold appendEdgesN
  have h : ∀ p ∈ ns, (p.1, { p.2 with
      calls := p.2.calls ++ (([] : List (String × String)).filter
        (fun e => decide (e.1 = p.1))).map Prod.snd,
      called_by := p.2.called_by ++ (([] : List (String × String)).filter
        (fun e => decide (e.2 = p.1))).map Prod.fst }) = p := by
    intro p _
    simp
  rw [List.map_congr_left h]
  exact List.map_id ns

theorem keysA_appendEdgesN (ns : List (String × CallNode))
    (E : List (String × String)) : keysA (appendEdgesN ns E) = keysA ns := by
  unfold appendEdgesN
  apply keysA_map_fst_preserving
  intro p
  rfl

theorem edgeStep_meta (a b : String) (p : String × CallNode) :
    (edgeStep a b p).2.module = p.2.module ∧ (edgeStep a b p).2.line = p.2.line ∧
    (edgeStep a b p).2.node_type = p.2.node_type := by
  unfold edgeStep
  by_cases h1 : p.1 = a
  · by_cases h2 : p.1 = b
    · have hab : a = b := h1.symm.trans h2
      simp [h1, h2, hab]
    · have hab : ¬ a = b := fun hc => h2 (h1.trans hc)
      simp [h1, h2, hab]
  · by_cases h2 : p.1 = b
    · have hab : ¬ b = a := fun hc => h1 (h2.trans hc)
      simp [h1, h2, hab]
    · simp [h1, h2]

theorem foldl_add_edge_append :
    ∀ (E : List (String × String)) (h : CallGraph),
      NodupKeys h →
      (∀ e ∈ E, e.1 ∈ keysA h.nodes ∧ e.2 ∈ keysA h.nodes) →
      (E.foldl (fun g e => g.add_edge e.1 e.2) h).nodes = appendEdgesN h.nodes E ∧
      (E.foldl (fun g e => g.add_edge e.1 e.2) h).edges = h.edges ++ E := by
  intro E
  induction E with
  | nil =>
    intro h _ _
    exact ⟨(appendEdgesN_nil h.nodes).symm, by simp⟩
  | cons e rest ih =>
    intro h hnd hcl
    have he := hcl e (List.mem_cons_self _ _)
    have ha : (lookupA h.nodes e.1).isSome = true :=
      lookupA_isSome_iff.mpr (mem_keysA.mp he.1)
    have hb : (lookupA h.nodes e.2).isSome = true :=
      lookupA_isSome_iff.mpr (mem_keysA.mp he.2)
    have hn1 : (h.add_edge e.1 e.2).nodes = h.nodes.map (edgeStep e.1 e.2) :=
      add_edge_nodes_of_present hnd ha hb
    have he1 : (h.add_edge e.1 e.2).edges = h.edges ++ [e] := by
      rw [add_edge_edges_of_present ha hb]
    have hkeys1 : keysA (h.add_edge e.1 e.2).nodes = keysA h.nodes :=
      add_edge_keys h e.1 e.2
    simp only [List.foldl_cons]
    have hrec := ih (h.add_edge e.1 e.2)
      (by unfold NodupKeys; rw [hkeys1]; exact hnd)
      (by intro e2 he2; rw [hkeys1]; exact hcl e2 (List.mem_cons_of_mem _ he2))
    refine ⟨?_, ?_⟩
    · rw [hrec.1, hn1]
      unfold appendEdgesN
      rw [List.map_map]
      apply List.map_congr_left
      intro p _
      have hparts := edgeStep_parts e.1 e.2 p
      have hfst : (edgeStep e.1 e.2 p).1 = p.1 := edgeStep_fst e.1 e.2 p
      show ((edgeStep e.1 e.2 p).1, _) = _
      rw [Prod.ext_iff]
      refine ⟨hfst, ?_⟩
      show ({ (edgeStep e.1 e.2 p).2 with
        calls := (edgeStep e.1 e.2 p).2.calls ++ _,
        called_by := (edgeStep e.1 e.2 p).2.called_by ++ _ } : CallNode) = _
      rw [CallNode.mk.injEq]
      refine ⟨by rw [hparts.2.2], (edgeStep_meta e.1 e.2 p).1,
        (edgeStep_meta e.1 e.2 p).2.1, (edgeStep_meta e.1 e.2 p).2.2, ?_, ?_⟩
      · rw [hparts.1, hfst, List.filter_cons]
        by_cases hcase : e.1 = p.1
        · simp [hcase, List.append_assoc]
        · have hcase2 : ¬ p.1 = e.1 := fun hc => hcase hc.symm
          simp [hcase, hcase2, List.append_assoc]
      · rw [hparts.2.1, hfst, List.filter_cons]
        by_cases hcase : e.2 = p.1
        · simp [hcase, List.append_assoc]
        · have hcase2 : ¬ p.1 = e.2 := fun hc => hcase hc.symm
          simp [hcase, hcase2, List.append_assoc]
    · rw [hrec.2, he1]
      simp

theorem graph_eq_of_fields {g h : CallGraph} (h1 : g.nodes = h.nodes)
    (h2 : g.edges = h.edges) : g = h := by
  cases g
  cases h
  cases h1
  cases h2
  rfl

theorem foldl_add_node_disjoint :
    ∀ (ns : List (String × CallNode)) (global : CallGraph),
      (∀ p ∈ ns, p.2.name = p.1) →
      (keysA ns).Nodup →
      (∀ k ∈ keysA ns, k ∉ keysA global.nodes) →
      ns.foldl (fun g p => g.add_node p.2) global
        = { nodes := global.nodes ++ ns, edges := global.edges } := by
  intro ns
  induction ns with
  | nil =>
    intro global _ _ _
    cases global
    simp
  | cons p rest ih =>
    intro global hname hnd hdisj
    obtain ⟨k, nd⟩ := p
    have hk : nd.name = k := hname (k, nd) (List.mem_cons_self _ _)
    have hkng : k ∉ keysA global.nodes :=
      hdisj k (by simp [keysA])
    simp only [keysA, List.map_cons, List.nodup_cons] at hnd
    have hstep : global.add_node nd
        = { nodes := global.nodes ++ [(k, nd)], edges := global.edges } := by
      unfold CallGraph.add_node
      rw [hk, setA_not_mem nd hkng]
    simp only [List.foldl_cons]
    rw [hstep]
    rw [ih { nodes := global.nodes ++ [(k, nd)], edges := global.edges }
      (fun q hq => hname q (List.mem_cons_of_mem _ hq))
      (by simpa [keysA] using hnd.2)
      (by
        intro k2 hk2
        have hne : ¬ k2 = k := by
          intro hcon
          subst hcon
          exact hnd.1 (by simpa [keysA] using hk2)
        have hng : k2 ∉ keysA global.nodes :=
          hdisj k2 (by
            simp only [keysA, List.map_cons, List.mem_cons]
            exact Or.inr (by simpa [keysA] using hk2))
        show k2 ∉ keysA (global.nodes ++ [(k, nd)])
        rw [keysA_append]
        intro hcon
        rcases List.mem_append.mp hcon with hcg | hck
        · exact hng hcg
        · exact hne (by simpa [keysA] using hck))]
    apply graph_eq_of_fields <;> simp

theorem appendEdgesN_untouched (ns : List (String × CallNode))
    (E : List (String × String))
    (h : ∀ p ∈ ns, ∀ e ∈ E, ¬ e.1 = p.1 ∧ ¬ e.2 = p.1) :
    appendEdgesN ns E = ns := by
  unfold appendEdgesN
  have hcong : ∀ p ∈ ns, (p.1, { p.2 with
      calls := p.2.calls ++ (E.filter (fun e => decide (e.1 = p.1))).map Prod.snd,
      called_by := p.2.called_by
        ++ (E.filter (fun e => decide (e.2 = p.1))).map Prod.fst }) = p := by
    intro p hp
    have h1 : E.filter (fun e => decide (e.1 = p.1)) = [] := by
      rw [List.filter_eq_nil_iff]
      intro e heE
      simpa using (h p hp e heE).1
    have h2 : E.filter (fun e => decide (e.2 = p.1)) = [] := by
      rw [List.filter_eq_nil_iff]
      intro e heE
      simpa using (h p hp e heE).2
    simp [h1, h2]
  rw [List.map_congr_left hcong]
  exact List.map_id ns

/-- The observable effect of Python's object aliasing during the merge:
every re-inserted node keeps its fragment-phase `calls`/`called_by` content
and the edge replay appends the same entries once more. -/
def doubleNode (p : String × CallNode) : String × CallNode :=
  (p.1, { p.2 with
    calls := p.2.calls ++ p.2.calls,
    called_by := p.2.called_by ++ p.2.called_by })

theorem appendEdgesN_consistent (frag : CallGraph) (hc : Consistent frag) :
    appendEdgesN frag.nodes frag.edges = frag.nodes.map doubleNode := by
  unfold appendEdgesN
  apply List.map_congr_left
  intro p hp
  have hthis := hc p hp
  unfold doubleNode
  have e1 : p.2.calls ++ (frag.edges.filter
      (fun e => decide (e.1 = p.1))).map Prod.snd = p.2.calls ++ p.2.calls := by
    rw [← hthis.1]
  have e2 : p.2.called_by ++ (frag.edges.filter
      (fun e => decide (e.2 = p.1))).map Prod.fst
      = p.2.called_by ++ p.2.called_by := by
    rw [← hthis.2]
  rw [e1, e2]

theorem mergeFrag_char (global frag : CallGraph)
    (hfnd : NodupKeys frag) (hfname : KeyIsName frag) (hfcl : EdgesClosed frag)
    (hgnd : NodupKeys global)
    (hdisj : ∀ k ∈ keysA frag.nodes, k ∉ keysA global.nodes) :
    mergeFrag global frag
      = { nodes := global.nodes ++ appendEdgesN frag.nodes frag.edges,
          edges := global.edges ++ frag.edges } := by
  unfold mergeFrag
  rw [foldl_add_node_disjoint frag.nodes global hfname hfnd hdisj]
  have hnd2 : NodupKeys
      { nodes := global.nodes ++ frag.nodes, edges := global.edges } := by
    unfold NodupKeys
    show (keysA (global.nodes ++ frag.nodes)).Nodup
    rw [keysA_append]
    refine List.Nodup.append hgnd hfnd ?_
    intro a hag haf
    exact hdisj a haf hag
  have hcl2 : ∀ e ∈ frag.edges,
      e.1 ∈ keysA
        ({ nodes := global.nodes ++ frag.nodes, edges := global.edges } : CallGraph).nodes ∧
      e.2 ∈ keysA
        ({ nodes := global.nodes ++ frag.nodes, edges := global.edges } : CallGraph).nodes := by
    intro e he
    have := hfcl e he
    show e.1 ∈ keysA (global.nodes ++ frag.nodes) ∧
         e.2 ∈ keysA (global.nodes ++ frag.nodes)
    rw [keysA_append]
    exact ⟨List.mem_append_right _ this.1, List.mem_append_right _ this.2⟩
  obtain ⟨h1, h2⟩ := foldl_add_edge_append frag.edges _ hnd2 hcl2
  apply graph_eq_of_fields
  · rw [h1]
    show appendEdgesN (global.nodes ++ frag.nodes) frag.edges = _
    unfold appendEdgesN
    rw [List.map_append]
    show _ ++ _ = global.nodes ++ appendEdgesN frag.nodes frag.edges
    congr 1
    show appendEdgesN global.nodes frag.edges = global.nodes
    apply appendEdgesN_untouched
    intro p hp e he
    have hcl := hfcl e he
    constructor
    · intro hcon
      exact hdisj e.1 hcl.1 (hcon ▸ mem_keysA.mpr ⟨p.2, by simpa using hp⟩)
    · intro hcon
      exact hdisj e.2 hcl.2 (hcon ▸ mem_keysA.mpr ⟨p.2, by simpa using hp⟩)
  · rw [h2]

/-! ### The service-layer cache key (`src/web/app.py`) -/

/-- Embeds the cache key computed at line 113 of `src/web/app.py`
(`cache_key = f"\x7broot_path\x7d_\x7blen(files)\x7d"`), under which `get_facts`
stores both `analysis_cache[cache_key]` and `callgraph_cache[cache_key]`;
`files` is the scanned file list, of which only the length enters the key. -/
def cacheKey (root_path : String) (files : List String) : String :=
  root_path ++ "_" ++ toString files.length

/-- C7: the cache key of `get_facts` depends only on the root path and the
COUNT of scanned files, so any two file sets of equal size under the same
root collide on the same cache entry — the content-derived fingerprint the
spec demands (path + modification time + size of each file) is absent. -/
theorem C7_cachekey_weak (root : String) (files1 files2 : List String)
    (h : files1.length = files2.length) :
    cacheKey root files1 = cacheKey root files2 := by
  unfold cacheKey
  rw [h]

theorem C7_cachekey_weak_witness :
    (["a.py", "b.py"] : List String).length
      = (["a.py", "c.py"] : List String).length ∧
    cacheKey "/repo" ["a.py", "b.py"] = cacheKey "/repo" ["a.py", "c.py"] :=
  ⟨rfl, C7_cachekey_weak "/repo" ["a.py", "b.py"] ["a.py", "c.py"] rfl⟩

/-! ### C4: the full merge characterization -/

/-- Key-disjointness of two fragments' node dictionaries. -/
def DisjKeys (f1 f2 : CallGraph) : Prop :=
  ∀ k ∈ keysA f1.nodes, k ∉ keysA f2.nodes

theorem keysA_map_doubleNode (ns : List (String × CallNode)) :
    keysA (ns.map doubleNode) = keysA ns := by
  apply keysA_map_fst_preserving
  intro p
  rfl

theorem flatMap_filter_owner (π : String × String → String) :
    ∀ (frags : List CallGraph) (f : CallGraph), f ∈ frags →
      (∀ g ∈ frags, ∀ e ∈ g.edges, π e ∈ keysA g.nodes) →
      List.Pairwise DisjKeys frags →
      ∀ k ∈ keysA f.nodes,
        (frags.flatMap (fun g => g.edges)).filter (fun e => decide (π e = k))
          = f.edges.filter (fun e => decide (π e = k)) := by
  intro frags
  induction frags with
  | nil =>
    intro f hf
    exact absurd hf (List.not_mem_nil f)
  | cons g rest ih =>
    intro f hf hπ hpw k hk
    have hpw1 : ∀ h ∈ rest, DisjKeys g h := List.pairwise_cons.mp hpw |>.1
    have hpw2 : List.Pairwise DisjKeys rest := List.pairwise_cons.mp hpw |>.2
    rw [List.flatMap_cons, List.filter_append]
    rcases List.mem_cons.mp hf with hfg | hfr
    · subst hfg
      have hrest : (rest.flatMap (fun g2 => g2.edges)).filter
          (fun e => decide (π e = k)) = [] := by
        rw [List.filter_eq_nil_iff]
        intro e he
        obtain ⟨h2, hh2, heh2⟩ := List.mem_flatMap.mp he
        have hek : π e ∈ keysA h2.nodes :=
          hπ h2 (List.mem_cons_of_mem _ hh2) e heh2
        simp only [decide_eq_true_eq]
        intro hcon
        exact hpw1 h2 hh2 k hk (hcon ▸ hek)
      rw [hrest, List.append_nil]
    · have hknotg : k ∉ keysA (g.nodes) := by
        intro hcon
        exact hpw1 f hfr k hcon hk
      have hghd : g.edges.filter (fun e => decide (π e = k)) = [] := by
        rw [List.filter_eq_nil_iff]
        intro e he
        have hek : π e ∈ keysA g.nodes := hπ g (List.mem_cons_self _ _) e he
        simp only [decide_eq_true_eq]
        intro hcon
        exact hknotg (hcon ▸ hek)
      rw [hghd, List.nil_append]
      exact ih f hfr (fun g2 hg2 => hπ g2 (List.mem_cons_of_mem _ hg2)) hpw2 k hk

theorem foldl_mergeFrag_char :
    ∀ (frags : List CallGraph) (global : CallGraph),
      (∀ f ∈ frags, NodupKeys f ∧ KeyIsName f ∧ EdgesClosed f ∧ Consistent f) →
      List.Pairwise DisjKeys frags →
      NodupKeys global →
      (∀ f ∈ frags, ∀ k ∈ keysA f.nodes, k ∉ keysA global.nodes) →
      frags.foldl mergeFrag global
        = { nodes := global.nodes
              ++ frags.flatMap (fun f => f.nodes.map doubleNode),
            edges := global.edges ++ frags.flatMap (fun f => f.edges) } := by
  intro frags
  induction frags with
  | nil =>
    intro global _ _ _ _
    cases global
    simp
  | cons f rest ih =>
    intro global hprops hpw hgnd hdisj
    have hf := hprops f (List.mem_cons_self _ _)
    have hpw1 : ∀ h ∈ rest, DisjKeys f h := List.pairwise_cons.mp hpw |>.1
    have hpw2 : List.Pairwise DisjKeys rest := List.pairwise_cons.mp hpw |>.2
    have hdf : ∀ k ∈ keysA f.nodes, k ∉ keysA global.nodes :=
      hdisj f (List.mem_cons_self _ _)
    have hmerge : mergeFrag global f
        = { nodes := global.nodes ++ f.nodes.map doubleNode,
            edges := global.edges ++ f.edges } := by
      rw [mergeFrag_char global f hf.1 hf.2.1 hf.2.2.1 hgnd hdf,
        appendEdgesN_consistent f hf.2.2.2]
    simp only [List.foldl_cons]
    rw [hmerge]
    rw [ih { nodes := global.nodes ++ f.nodes.map doubleNode,
             edges := global.edges ++ f.edges }
      (fun g2 hg2 => hprops g2 (List.mem_cons_of_mem _ hg2))
      hpw2
      (by
        show (keysA (global.nodes ++ f.nodes.map doubleNode)).Nodup
        rw [keysA_append, keysA_map_doubleNode]
        refine List.Nodup.append hgnd hf.1 ?_
        intro a hag haf
        exact hdf a haf hag)
      (by
        intro g2 hg2 k hk
        show k ∉ keysA (global.nodes ++ f.nodes.map doubleNode)
        rw [keysA_append, keysA_map_doubleNode]
        intro hcon
        rcases List.mem_append.mp hcon with hcg | hcf
        · exact hdisj g2 (List.mem_cons_of_mem _ hg2) k hk hcg
        · exact hpw1 g2 hg2 k hcf hk)]
    apply graph_eq_of_fields <;> simp

theorem build_eq_foldl (contents : List (String × Except ParseErr Ast)) :
    ∀ (modules : List ModuleFacts) (g : CallGraph),
      modules.foldl (fun global m =>
          match lookupA contents m.path with
          | none => global
          | some src => mergeFrag global (extract_call_relations m src)) g
        = (modules.filterMap (fun m =>
            (lookupA contents m.path).map
              (fun src => extract_call_relations m src))).foldl mergeFrag g := by
  intro modules
  induction modules with
  | nil => intro g; rfl
  | cons m rest ih =>
    intro g
    cases hm : lookupA contents m.path with
    | none => simp [hm, ih]
    | some src => simp [hm, ih]

theorem length_flatMap_edges :
    ∀ (fs : List CallGraph),
      (fs.flatMap (fun f => f.edges)).length
        = (fs.map (fun f => f.edges.length)).sum := by
  intro fs
  induction fs with
  | nil => rfl
  | cons f rest ih => simp [List.flatMap_cons, ih]

/-- C4 (amended): merging the per-unit fragments does concatenate their edge
lists, and for key-disjoint fragments the merged edge count is the sum of the
fragments' counts; but every merged node's `calls` and `called_by` lists are
the DOUBLE of the merged-edge-derived lists, not equal to them: re-inserting
the fragment's `CallNode` objects keeps their fragment-phase `calls` and
`called_by` content (object aliasing), and the edge replay through `add_edge`
appends every entry a second time. -/
theorem C4_merge_amended (modules : List ModuleFacts)
    (contents : List (String × Except ParseErr Ast))
    (frags : List CallGraph)
    (hf : frags = modules.filterMap (fun m =>
      (lookupA contents m.path).map (fun src => extract_call_relations m src)))
    (hpw : List.Pairwise DisjKeys frags) :
    (build_module_callgraph modules contents).edges
      = frags.flatMap (fun f => f.edges) ∧
    (build_module_callgraph modules contents).edges.length
      = (frags.map (fun f => f.edges.length)).sum ∧
    ∀ p ∈ (build_module_callgraph modules contents).nodes,
      p.2.calls
        = ((build_module_callgraph modules contents).edges.filter
            (fun e => decide (e.1 = p.1))).map Prod.snd
          ++ ((build_module_callgraph modules contents).edges.filter
            (fun e => decide (e.1 = p.1))).map Prod.snd ∧
      p.2.called_by
        = ((build_module_callgraph modules contents).edges.filter
            (fun e => decide (e.2 = p.1))).map Prod.fst
          ++ ((build_module_callgraph modules contents).edges.filter
            (fun e => decide (e.2 = p.1))).map Prod.fst := by
  have hprops : ∀ f ∈ frags,
      NodupKeys f ∧ KeyIsName f ∧ EdgesClosed f ∧ Consistent f := by
    intro f hmem
    rw [hf] at hmem
    rcases List.mem_filterMap.mp hmem with ⟨m, _, hmap⟩
    obtain ⟨src, _, hex⟩ := Option.map_eq_some'.mp hmap
    rw [← hex]
    exact extract_graph_props m src
  have hG : build_module_callgraph modules contents
      = { nodes := frags.flatMap (fun f => f.nodes.map doubleNode),
          edges := frags.flatMap (fun f => f.edges) } := by
    unfold build_module_callgraph
    rw [build_eq_foldl, ← hf]
    rw [foldl_mergeFrag_char frags CallGraph.empty hprops hpw
      (by simp [NodupKeys, CallGraph.empty, keysA])
      (by intro f _ k _ hcon; simp [CallGraph.empty, keysA] at hcon)]
    apply graph_eq_of_fields <;> simp [CallGraph.empty]
  rw [hG]
  refine ⟨rfl, length_flatMap_edges frags, ?_⟩
  intro p hp
  have hp2 : p ∈ frags.flatMap (fun f2 => f2.nodes.map doubleNode) := hp
  rcases List.mem_flatMap.mp hp2 with ⟨f, hfmem, hpf⟩
  rcases List.mem_map.mp hpf with ⟨q, hq, hdq⟩
  have hfp := hprops f hfmem
  have hkey : p.1 = q.1 := by rw [← hdq]; rfl
  have hkq : q.1 ∈ keysA f.nodes := mem_keysA.mpr ⟨q.2, by simpa using hq⟩
  have hcalls : p.2.calls = q.2.calls ++ q.2.calls := by rw [← hdq]; rfl
  have hcb : p.2.called_by = q.2.called_by ++ q.2.called_by := by
    rw [← hdq]; rfl
  have hcons := hfp.2.2.2 q hq
  have hfilter1 := flatMap_filter_owner Prod.fst frags f hfmem
    (fun g hg e he => ((hprops g hg).2.2.1 e he).1) hpw q.1 hkq
  have hfilter2 := flatMap_filter_owner Prod.snd frags f hfmem
    (fun g hg e he => ((hprops g hg).2.2.1 e he).2) hpw q.1 hkq
  constructor
  · show p.2.calls = ((frags.flatMap (fun f2 => f2.edges)).filter
        (fun e => decide (e.1 = p.1))).map Prod.snd
      ++ ((frags.flatMap (fun f2 => f2.edges)).filter
        (fun e => decide (e.1 = p.1))).map Prod.snd
    rw [hcalls, hcons.1, hkey, hfilter1]
  · show p.2.called_by = ((frags.flatMap (fun f2 => f2.edges)).filter
        (fun e => decide (e.2 = p.1))).map Prod.fst
      ++ ((frags.flatMap (fun f2 => f2.edges)).filter
        (fun e => decide (e.2 = p.1))).map Prod.fst
    rw [hcb, hcons.2, hkey, hfilter2]

/-- The AST `ast.parse` yields for `def a():\n    b()\n\ndef b():\n    pass`. -/
def c4Tree : Ast := .module [
  .functionDef "a" ⟨[], [], none, [], none⟩
    [.exprStmt (.call (.name "b" 2) [] 2)] [] 1 2,
  .functionDef "b" ⟨[], [], none, [], none⟩ [.passS] [] 4 5]

def c4mf : ModuleFacts :=
  { module := "m", path := "m.py", imports := [], classes := [], functions := [] }

/-- C4 (counterexample): for the single module `def a(): b()` / `def b(): pass`
the merged graph has exactly the edge `(a, b)`, whose caller-filtered callee
list is `["b"]` — yet node `a` ends up with `calls = ["b", "b"]`: the claim
that every node's `calls` equals the multiset of callees of merged edges with
that caller fails on the very first merge. -/
theorem C4_merge_counterexample :
    (build_module_callgraph [c4mf] [("m.py", .ok c4Tree)]).edges
      = [("a", "b")] ∧
    ((build_module_callgraph [c4mf] [("m.py", .ok c4Tree)]).edges.filter
      (fun e => decide (e.1 = "a"))).map Prod.snd = ["b"] ∧
    (lookupA (build_module_callgraph [c4mf] [("m.py", .ok c4Tree)]).nodes
      "a").map (fun nd => nd.calls) = some ["b", "b"] := by
  refine ⟨by decide, by decide, by decide⟩

theorem C4_merge_amended_witness :
    ([extract_call_relations c4mf (.ok c4Tree)]
      = [c4mf].filterMap (fun m =>
          (lookupA [("m.py", (Except.ok c4Tree : Except ParseErr Ast))]
            m.path).map (fun src => extract_call_relations m src))) ∧
    List.Pairwise DisjKeys [extract_call_relations c4mf (.ok c4Tree)] ∧
    (build_module_callgraph [c4mf] [("m.py", .ok c4Tree)]).edges
      = [extract_call_relations c4mf (.ok c4Tree)].flatMap (fun f => f.edges) :=
  ⟨by decide,
    List.Pairwise.cons (fun b hb => absurd hb (List.not_mem_nil b))
      List.Pairwise.nil,
    (C4_merge_amended [c4mf] [("m.py", .ok c4Tree)]
      [extract_call_relations c4mf (.ok c4Tree)] (by decide)
      (List.Pairwise.cons (fun b hb => absurd hb (List.not_mem_nil b))
        List.Pairwise.nil)).1⟩

end AV
